import Mathlib

/-!
Verification of the multi-caret text editing core of `codepad`
(`src/codepad/editor/codebox.h`).

The development shallowly embeds, in order:
* the line store (`editor_context`: blocks of lines, line iterators,
  `load_from_file`, `save_to_file`, `insert_after`, `erase`, `erase_after`);
* the caret/selection set (`_caret_set::add_caret`,
  `_caret_set::can_merge_selection`, `codebox_editor::_is_in_selection`);
* the multi-cursor edit transaction (`_modify_iterator`: `start`, `next`,
  `end`, `insert_char`, `delete_char_before`, `delete_char_after`,
  `_delete_selection`, `_fixup_pos`, `_on_set_rpos`).

Modelling conventions:
* `char_t` strings are `List Char`; the byte/UTF decoding collaborators are
  out of scope (identity on the inputs considered here).
* machine integers: `size_t` fields are `Nat`, the `int` deltas `_dx`/`_dy`
  are `Int`; the casts `static_cast<size_t>(static_cast<int>(x) + d)` in
  `_fixup_pos` are modelled with `Int.toNat`, which agrees with the C++
  wrap-around semantics whenever the result is nonnegative (true in every
  run considered in the theorems below).
* rendering-only data (`baseline`, `pos_cache`, `selection_cache`) and the
  debug `assert`s (no-ops in release builds) are not modelled; they do not
  feed back into any of the logic verified here.
* `std::multimap` is an association list kept in key order; `insert` places
  an entry after all entries of equal key (C++11 upper-bound semantics).
-/

namespace Codepad

/-- Mirrors `codepad::editor::caret_position` (codebox.h:331): a
`(line, column)` pair of `size_t`. -/
structure CaretPosition where
  line : Nat
  column : Nat
deriving DecidableEq, Repr

/-- Mirrors `operator<` on `caret_position` (codebox.h:338):
`p1.line == p2.line ? p1.column < p2.column : p1.line < p2.line`. -/
def posLt (p1 p2 : CaretPosition) : Prop :=
  if p1.line = p2.line then p1.column < p2.column else p1.line < p2.line

theorem posLt_iff (p1 p2 : CaretPosition) :
    posLt p1 p2 ↔ p1.line < p2.line ∨ (p1.line = p2.line ∧ p1.column < p2.column) := by
  unfold posLt
  by_cases h : p1.line = p2.line <;> simp [h]

instance (p1 p2 : CaretPosition) : Decidable (posLt p1 p2) :=
  decidable_of_iff _ (posLt_iff p1 p2).symm

/-- Mirrors `operator<=` on `caret_position` (codebox.h:344): `!(p2 < p1)`. -/
def posLe (p1 p2 : CaretPosition) : Prop := ¬ posLt p2 p1

instance (p1 p2 : CaretPosition) : Decidable (posLe p1 p2) := by
  unfold posLe; infer_instance

theorem posLe_iff (p1 p2 : CaretPosition) :
    posLe p1 p2 ↔ p1.line < p2.line ∨ (p1.line = p2.line ∧ p1.column ≤ p2.column) := by
  unfold posLe
  rw [posLt_iff]
  constructor
  · intro h
    rcases Nat.lt_trichotomy p1.line p2.line with hl | hl | hl
    · exact Or.inl hl
    · exact Or.inr ⟨hl, by omega⟩
    · exact absurd (Or.inl hl) h
  · intro h hc
    rcases h with h | ⟨h1, h2⟩ <;> rcases hc with hc | ⟨hc1, hc2⟩ <;> omega

/-- `std::min(a, b)`: returns `b` when `b < a`, else `a`. -/
def posMin (a b : CaretPosition) : CaretPosition := if posLt b a then b else a

/-- `std::max` / second component of `std::minmax({a, b})`. -/
def posMax (a b : CaretPosition) : CaretPosition := if posLt b a then a else b

/-- Mirrors `codepad::editor::line_ending` (codebox.h:101). -/
inductive LineEnding where
  | none
  | r
  | n
  | rn
deriving DecidableEq, Repr

/-- Mirrors `editor_context::line` (codebox.h:179): a content buffer plus a
line-ending tag. -/
structure Line where
  content : List Char
  ending_type : LineEnding
deriving DecidableEq, Repr

/-- Mirrors `editor_context::block` (codebox.h:186): an ordered sequence of
lines.  The document (`editor_context::_blocks`) is a `List Block`. -/
abbrev Block := List Line

/-- `block::advised_lines` (codebox.h:187). -/
def advised_lines : Nat := 1000

/-- Insert an element at position `n` of a list (used to model
`std::list::insert` before the iterator at that position). -/
def insertAt {α : Type} : Nat → α → List α → List α
  | 0, a, xs => a :: xs
  | _ + 1, a, [] => [a]
  | n + 1, a, x :: xs => x :: insertAt n a xs

/-- Remove the element at position `n` of a list (used to model
`std::list::erase`); out-of-range indices leave the list unchanged. -/
def removeAt {α : Type} : Nat → List α → List α
  | _, [] => []
  | 0, _ :: xs => xs
  | n + 1, x :: xs => x :: removeAt n xs

/-- Apply `f` to the element at position `n` of a list (used to model
in-place mutation through a `std::list` iterator). -/
def modifyAt {α : Type} (f : α → α) : Nat → List α → List α
  | _, [] => []
  | 0, x :: xs => f x :: xs
  | n + 1, x :: xs => x :: modifyAt f n xs

/-- Concatenation of all blocks, i.e. the document's line sequence in
`line_iterator` traversal order. -/
def flatten {α : Type} : List (List α) → List α
  | [] => []
  | b :: bs => b ++ flatten bs

/-- Mirrors `editor_context::num_lines` (codebox.h:285): the sum of the
block sizes. -/
def num_lines : List Block → Nat
  | [] => 0
  | b :: bs => b.length + num_lines bs

/-- A `line_iterator` (codebox.h:191) is a block position plus a line
position inside that block, modelled as an index pair. -/
abbrev LineIt := Nat × Nat

/-- Number of lines of block `b` (empty when out of range). -/
def blockLen (doc : List Block) (b : Nat) : Nat := (doc.getD b []).length

/-- An iterator that references an actual line of the document. -/
def itValid (doc : List Block) (it : LineIt) : Prop :=
  it.1 < doc.length ∧ it.2 < blockLen doc it.1

/-- The line an iterator dereferences to (dummy line when out of range;
dereferencing an invalid iterator is UB in the source). -/
def itLine (doc : List Block) (it : LineIt) : Line :=
  (doc.getD it.1 []).getD it.2 ⟨[], LineEnding.none⟩

/-- Global (flat) line index of an iterator. -/
def flatIdx (doc : List Block) (it : LineIt) : Nat :=
  (flatten (doc.take it.1)).length + it.2

/-- Mirrors `line_iterator_base::operator++` (codebox.h:205): step to the
next line inside the block, or to the first line of the next block. -/
def itInc (doc : List Block) (it : LineIt) : LineIt :=
  if it.2 + 1 = blockLen doc it.1 then (it.1 + 1, 0) else (it.1, it.2 + 1)

/-- Mirrors `line_iterator_base::operator--` (codebox.h:217): step to the
previous line inside the block, or to the last line of the previous block. -/
def itDec (doc : List Block) (it : LineIt) : LineIt :=
  if it.2 = 0 then (it.1 - 1, blockLen doc (it.1 - 1) - 1) else (it.1, it.2 - 1)

/-- Mirrors `editor_context::before_end` (codebox.h:311): the last line of
the last block. -/
def before_end (doc : List Block) : LineIt :=
  (doc.length - 1, blockLen doc (doc.length - 1) - 1)

/-- Mirrors `editor_context::_at_impl` (codebox.h:297): walk the blocks,
decrementing the target index by each block's size.  (On out-of-range input
the source hits `assert(false)` and returns `begin`; we return `(0,0)`.) -/
def docAtGo : Nat → Nat → List Block → LineIt
  | _, _, [] => (0, 0)
  | b, v, blk :: rest => if v < blk.length then (b, v) else docAtGo (b + 1) (v - blk.length) rest

/-- Mirrors `editor_context::at` (codebox.h:244). -/
def docAt (doc : List Block) (v : Nat) : LineIt := docAtGo 0 v doc

/-- Mirrors `editor_context::_do_erase` (codebox.h:324): erase the line the
iterator points to; if its block becomes empty, erase the block as well. -/
def do_erase (doc : List Block) (it : LineIt) : List Block :=
  let doc' := modifyAt (removeAt it.2) it.1 doc
  if (doc'.getD it.1 [⟨[], LineEnding.none⟩]).isEmpty then removeAt it.1 doc' else doc'

/-- Mirrors `editor_context::erase_after` (codebox.h:281):
`_do_erase(++it)`. -/
def erase_after (doc : List Block) (it : LineIt) : List Block :=
  do_erase doc (itInc doc it)

/-- Mirrors `editor_context::erase` (codebox.h:273).  The node erased is the
one `it` references in both branches (the post-increment/decrement happens
during argument evaluation, before `_do_erase` runs); the returned iterator
is the decremented iterator for the `before_end` line and the incremented
one otherwise.  `std::list` iterators are stable node pointers, so the
returned pointer must be rendered as the surviving node's index pair in the
post-erase document: the predecessor's pair is untouched by the erasure
(it lies strictly before the erased slot), while the successor slides into
the erased line's slot when it shared its block, into the erased block's
slot when that block vanishes, and keeps its next-block-start pair
otherwise. -/
def ctx_erase (doc : List Block) (it : LineIt) : List Block × LineIt :=
  if it = before_end doc then (do_erase doc it, itDec doc it)
  else
    (do_erase doc it,
      if it.2 + 1 < blockLen doc it.1 then (it.1, it.2)
      else if blockLen doc it.1 = 1 then (it.1, 0)
      else (it.1 + 1, 0))

/-- Mirrors `editor_context::insert_after` (codebox.h:268): insert a line
after the iterator, inside the same block; the result iterator references
the new line. -/
def insert_after (doc : List Block) (it : LineIt) (l : Line) : List Block × LineIt :=
  (modifyAt (insertAt (it.2 + 1) l) it.1 doc, (it.1, it.2 + 1))

/-- Mirrors `editor_context::_init_append_line` (codebox.h:318): append a
line to the last block, opening a fresh block when the last block has
reached `advised_lines`. -/
def init_append_line (bs : List Block) (ln : Line) : List Block :=
  if (bs.getLast?.getD []).length = advised_lines then bs ++ [[ln]]
  else bs.dropLast ++ [bs.getLast?.getD [] ++ [ln]]

/-- The scan loop of `editor_context::load_from_file` (codebox.h:131-150):
`last` is the previously seen character (`U'\0'` initially), `acc` the
content accumulated for the current line (`nss`), `bs` the blocks built so
far.  A character following a `'\r'` only contributes to the line-ending
classification of the terminated line; the source never appends it to the
new accumulator. -/
def load_loop : Char → List Char → List Block → List Char → List Block
  | last, acc, bs, [] =>
    if last = '\r' then
      init_append_line (init_append_line bs ⟨acc, LineEnding.r⟩) ⟨[], LineEnding.none⟩
    else init_append_line bs ⟨acc, LineEnding.none⟩
  | last, acc, bs, i :: rest =>
    if last = '\r' then
      load_loop i [] (init_append_line bs ⟨acc, if i = '\n' then LineEnding.rn else LineEnding.r⟩) rest
    else if i = '\n' then load_loop i [] (init_append_line bs ⟨acc, LineEnding.n⟩) rest
    else if i = '\r' then load_loop i acc bs rest
    else load_loop i (acc ++ [i]) bs rest

/-- Mirrors `editor_context::load_from_file` (codebox.h:113): the byte/UTF
decoding is the identity on the inputs considered; `_blocks` starts as a
single empty block (codebox.h:130). -/
def load_from_file (content : List Char) : List Block :=
  load_loop (Char.ofNat 0) [] [[]] content

/-- The characters emitted for a line's ending tag on save
(codebox.h:157-169). -/
def ending_chars : LineEnding → List Char
  | LineEnding.none => []
  | LineEnding.r => ['\r']
  | LineEnding.n => ['\n']
  | LineEnding.rn => ['\r', '\n']

/-- Emission loop of `save_to_file`: content then terminator, for every line
from `begin()` through `before_end()` inclusive. -/
def save_lines : List Line → List Char
  | [] => []
  | ln :: t => ln.content ++ ending_chars ln.ending_type ++ save_lines t

/-- Mirrors `editor_context::save_to_file` (codebox.h:152), minus the
byte-encoding collaborator (identity here). -/
def save_to_file (doc : List Block) : List Char := save_lines (flatten doc)

/-- A caret-set entry: the multimap key (`pair.first`, the caret's moving
position) and `_caret_range::selection_end` (the fixed end).  The spec calls
this pair `(anchor, selection_end)`; its range is the (unordered) closed
interval between the two.  The rendering fields `baseline`, `pos_cache`,
`selection_cache` of `_caret_range` (codebox.h:451) are not modelled. -/
abbrev Entry := CaretPosition × CaretPosition

/-- Range minimum of an entry. -/
def rMin (e : Entry) : CaretPosition := posMin e.1 e.2

/-- Range maximum of an entry. -/
def rMax (e : Entry) : CaretPosition := posMax e.1 e.2

/-- Mirrors `_caret_set::can_merge_selection` (codebox.h:500).  The C++
routine returns `bool` and writes the combined pair through the out
parameters `rm`/`rs` (aliased to the candidate, passed by value here);
`Option Entry` packages both. -/
def can_merge_selection (c e : Entry) : Option Entry :=
  if c.1 = c.2 ∧ posLe (rMin e) c.1 ∧ posLe c.1 (rMax e) then some e
  else if e.1 = e.2 ∧ posLe (rMin c) e.1 ∧ posLe e.1 (rMax c) then some c
  else if posLe (rMax c) (rMin e) ∨ posLe (rMax e) (rMin c) then Option.none
  else if posLt c.1 c.2 then
    some (posMin (rMin c) (rMin e), posMax (rMax c) (rMax e))
  else
    some (posMax (rMax c) (rMax e), posMin (rMin c) (rMin e))

/-- The merge loop of `add_caret` (codebox.h:486-497): `res` is the running
candidate, the list is the iterator window; an entry is visited while
`min(key, selection_end) <= minmaxv.second` (with `minmaxv.second` fixed to
the original candidate's maximum `M0`); a mergeable entry is erased from the
map and folded into `res`, otherwise the iterator advances; the first entry
failing the window condition stops the loop. -/
def merge_scan (M0 : CaretPosition) : Entry → List Entry → Entry × List Entry
  | res, [] => (res, [])
  | res, e :: t =>
    if posLe (rMin e) M0 then
      match can_merge_selection res e with
      | some r => merge_scan M0 r t
      | Option.none =>
        let pr := merge_scan M0 res t
        (pr.1, e :: pr.2)
    else (res, e :: t)

/-- `std::multimap::insert` (C++11): insert at the upper bound of the key,
i.e. after every entry whose key is `<=` the new entry's key. -/
def insertUB : List Entry → Entry → List Entry
  | [], r => [r]
  | e :: t, r => if posLe e.1 r.1 then e :: insertUB t r else r :: e :: t

/-- Mirrors `_caret_set::add_caret` (codebox.h:474).  `lower_bound` of the
candidate's range minimum on the key-sorted list is the boundary between
`pre` (keys `< m`) and `suf`; the loop iterator starts one entry before the
lower bound when possible (`if (beg != mp.begin()) --beg;`), so the scanned
window is the last entry of `pre` (if any) followed by `suf`. -/
def add_caret (mp : List Entry) (c : Entry) : List Entry :=
  let m := rMin c
  let M0 := rMax c
  let pre := mp.takeWhile fun e => decide (posLt e.1 m)
  let suf := mp.dropWhile fun e => decide (posLt e.1 m)
  let window := pre.drop (pre.length - 1) ++ suf
  let pfx := pre.dropLast
  let pr := merge_scan M0 c window
  insertUB (pfx ++ pr.2) pr.1

/-- The scan loop of `codebox_editor::_is_in_selection` (codebox.h:888-896):
visit entries while `min(key, selection_end) <= cp`; report true on the
first entry with `anchor != selection_end` whose closed range contains
`cp`. -/
def in_selection_scan (cp : CaretPosition) : List Entry → Bool
  | [] => false
  | e :: t =>
    if posLe (rMin e) cp then
      if e.1 ≠ e.2 ∧ posLe (rMin e) cp ∧ posLe cp (rMax e) then true
      else in_selection_scan cp t
    else false

/-- Mirrors `codebox_editor::_is_in_selection` (codebox.h:883): start at
`lower_bound(cp)` stepped back once when possible, then scan. -/
def is_in_selection (mp : List Entry) (cp : CaretPosition) : Bool :=
  let pre := mp.takeWhile fun e => decide (posLt e.1 cp)
  let suf := mp.dropWhile fun e => decide (posLt e.1 cp)
  in_selection_scan cp (pre.drop (pre.length - 1) ++ suf)

/-- Two entries' closed ranges overlap in more than a point exactly when
each range's minimum is strictly below the other's maximum. -/
def properOverlap (e1 e2 : Entry) : Prop :=
  posLt (rMin e2) (rMax e1) ∧ posLt (rMin e1) (rMax e2)

instance (e1 e2 : Entry) : Decidable (properOverlap e1 e2) := by
  unfold properOverlap; infer_instance

/-! ### C1: the save/load round-trip law fails on a lone `\r` -/

/-- C1.  The round-trip law `save(load(b)) == b` FAILS on the well-formed
input `"a\rb"` (printable text, a `\r` terminator, printable text, no
trailing terminator): the scan loop of `load_from_file` consumes the
character that follows a lone `\r` solely to classify the terminator as
`\r` vs `\r\n` and never appends it to the next line's accumulator, so the
`'b'` is dropped and saving yields `"a\r"`. -/
theorem round_trip_fails_after_lone_cr :
    load_from_file ['a', '\r', 'b'] =
      [[⟨['a'], LineEnding.r⟩, ⟨[], LineEnding.none⟩]] ∧
    save_to_file (load_from_file ['a', '\r', 'b']) = ['a', '\r'] ∧
    save_to_file (load_from_file ['a', '\r', 'b']) ≠ ['a', '\r', 'b'] := by
  refine ⟨rfl, rfl, ?_⟩
  decide

/-! ### C2: the no-intersecting-ranges invariant fails -/

/-- C2.  Starting from the empty set (trivially free of intersecting
ranges), the merge-insert sequence `(0,3)-(0,7)`, `(0,3)-(0,1)`,
caret `(0,5)`, `(0,4)-(0,6)` leaves the set containing the entries
`(0,3)-(0,7)` and `(0,4)-(0,6)`, whose ranges intersect properly (not
merely touching), violating the invariant claimed after any sequence of
merge-inserts.  The window scan of `add_caret` starts only one entry before
`lower_bound(min)` and so never visits the entry keyed `(0,3)` that extends
right to `(0,7)`. -/
theorem add_caret_breaks_no_overlap_invariant :
    (add_caret (add_caret (add_caret (add_caret []
        (⟨0, 3⟩, ⟨0, 7⟩)) (⟨0, 3⟩, ⟨0, 1⟩)) (⟨0, 5⟩, ⟨0, 5⟩)) (⟨0, 4⟩, ⟨0, 6⟩)) =
      [(⟨0, 3⟩, ⟨0, 7⟩), (⟨0, 3⟩, ⟨0, 1⟩), (⟨0, 4⟩, ⟨0, 6⟩)] ∧
    properOverlap (⟨0, 3⟩, ⟨0, 7⟩) (⟨0, 4⟩, ⟨0, 6⟩) := by
  constructor
  · rfl
  · decide

/-! ### C9: `is_in_selection` misses a covering selection -/

/-- C9.  On the reachable two-entry set built by merge-inserting
`(0,7)-(0,9)` then `(0,7)-(0,3)` into the empty set, the query position
`(0,5)` is strictly inside the range of the entry `(0,7)-(0,3)` (which has
`anchor != selection_end`), yet `_is_in_selection` returns `false`: its scan
starts at `lower_bound((0,5))`, which is the first key-`(0,7)` entry and
also `begin()`, so no step back happens, and that first entry's range
minimum `(0,7)` already fails the window condition, ending the loop before
the covering entry is examined.  (Separately, the containment test the code
does perform is closed, `cp >= min && cp <= max`, not strict.) -/
theorem is_in_selection_misses_covering_entry :
    (add_caret (add_caret [] (⟨0, 7⟩, ⟨0, 9⟩)) (⟨0, 7⟩, ⟨0, 3⟩)) =
      [(⟨0, 7⟩, ⟨0, 9⟩), (⟨0, 7⟩, ⟨0, 3⟩)] ∧
    is_in_selection [(⟨0, 7⟩, ⟨0, 9⟩), (⟨0, 7⟩, ⟨0, 3⟩)] ⟨0, 5⟩ = false ∧
    ((⟨0, 7⟩, ⟨0, 3⟩) : Entry).1 ≠ ((⟨0, 7⟩, ⟨0, 3⟩) : Entry).2 ∧
    posLt (rMin (⟨0, 7⟩, ⟨0, 3⟩)) ⟨0, 5⟩ ∧ posLt (⟨0, 5⟩ : CaretPosition) (rMax (⟨0, 7⟩, ⟨0, 3⟩)) := by
  refine ⟨rfl, rfl, ?_, ?_, ?_⟩ <;> decide

/-! ### Order lemmas for `caret_position` -/

theorem not_posLe_iff (a b : CaretPosition) : ¬ posLe a b ↔ posLt b a := by
  unfold posLe
  exact not_not

theorem posLe_of_posLt {a b : CaretPosition} (h : posLt a b) : posLe a b := by
  rw [posLt_iff] at h
  rw [posLe_iff]
  rcases h with h | h
  · exact Or.inl h
  · exact Or.inr ⟨h.1, Nat.le_of_lt h.2⟩

theorem posLe_antisymm {a b : CaretPosition} (h1 : posLe a b) (h2 : posLe b a) : a = b := by
  rw [posLe_iff] at h1 h2
  cases a with
  | mk al ac =>
    cases b with
    | mk bl bc =>
      simp only [CaretPosition.mk.injEq]
      rcases h1 with h1 | h1 <;> rcases h2 with h2 | h2 <;> simp_all <;> omega

theorem posMin_self (a : CaretPosition) : posMin a a = a := by
  unfold posMin; split <;> rfl

theorem posMax_self (a : CaretPosition) : posMax a a = a := by
  unfold posMax; split <;> rfl

theorem rMin_pure (a : CaretPosition) : rMin (a, a) = a := posMin_self a

theorem rMax_pure (a : CaretPosition) : rMax (a, a) = a := posMax_self a

/-! ### C4: a caret landing in a selection leaves that selection's pair in
the set -/

theorem mem_insertUB_self (l : List Entry) (r : Entry) : r ∈ insertUB l r := by
  induction l with
  | nil => exact List.mem_singleton_self r
  | cons e t ih =>
    unfold insertUB
    split
    · exact List.mem_cons_of_mem e ih
    · exact List.mem_cons_self r _

theorem mem_insertUB_of_mem {l : List Entry} {a : Entry} (r : Entry) (h : a ∈ l) :
    a ∈ insertUB l r := by
  induction l with
  | nil => cases h
  | cons e t ih =>
    unfold insertUB
    split
    · rcases List.mem_cons.1 h with h | h
      · exact h ▸ List.mem_cons_self e _
      · exact List.mem_cons_of_mem e (ih h)
    · exact List.mem_cons_of_mem r h

/-- Shape of a successful `can_merge_selection`: provided the two entries'
ranges do not properly overlap whenever the candidate is a real selection,
a merge can only absorb a pure candidate into the visited entry (first
branch) or absorb a pure visited entry into the candidate (second branch);
the range-union third branch cannot fire. -/
theorem can_merge_some_shape (res e r : Entry) (h : can_merge_selection res e = some r)
    (hside : res.1 ≠ res.2 → ¬ properOverlap res e) :
    (res.1 = res.2 ∧ posLe (rMin e) res.1 ∧ posLe res.1 (rMax e) ∧ r = e) ∨
    (e.1 = e.2 ∧ r = res) := by
  unfold can_merge_selection at h
  split at h
  case isTrue hc =>
    exact Or.inl ⟨hc.1, hc.2.1, hc.2.2, (Option.some.inj h).symm⟩
  case isFalse hc1 =>
    split at h
    case isTrue hc =>
      exact Or.inr ⟨hc.1, (Option.some.inj h).symm⟩
    case isFalse hc2 =>
      split at h
      case isTrue => cases h
      case isFalse hsep =>
        exfalso
        rw [not_or, not_posLe_iff, not_posLe_iff] at hsep
        by_cases hp : res.1 = res.2
        · apply hc1
          refine ⟨hp, ?_, ?_⟩
          · apply posLe_of_posLt
            rw [hp]
            have := hsep.1
            rwa [rMax, hp, posMax_self] at this
          · apply posLe_of_posLt
            rw [hp]
            have := hsep.2
            rwa [rMin, hp, posMin_self] at this
        · exact hside hp ⟨hsep.1, hsep.2⟩

/-- Main loop invariant for `add_caret`'s merge scan, specialised to a pure
candidate at `p`: as long as the scanned window is pairwise free of proper
range overlaps, a non-degenerate entry `E` whose closed range contains `p`
is either still present in the surviving window or has become the running
candidate itself (with its `(anchor, selection_end)` pair intact). -/
theorem merge_scan_keeps (p : CaretPosition) (E : Entry) (hnd : E.1 ≠ E.2)
    (M0 : CaretPosition) :
    ∀ (l : List Entry) (res : Entry),
      (res.1 = res.2 → res = (p, p)) →
      (res.1 ≠ res.2 → ∀ e ∈ l, ¬ properOverlap res e) →
      l.Pairwise (fun a b => ¬ properOverlap a b) →
      (res = E ∨ E ∈ l) →
      (merge_scan M0 res l).1 = E ∨ E ∈ (merge_scan M0 res l).2 := by
  intro l
  induction l with
  | nil =>
    intro res _ _ _ hm
    simpa [merge_scan] using hm
  | cons e t ih =>
    intro res hInv1 hInv2 hpw hm
    simp only [merge_scan]
    split
    case isTrue hwin =>
      cases hcm : can_merge_selection res e with
      | none =>
        simp only
        rcases hm with hm | hm
        · rcases ih res hInv1 (fun hne f hf => hInv2 hne f (List.mem_cons_of_mem e hf))
            hpw.of_cons (Or.inl hm) with h | h
          · exact Or.inl h
          · exact Or.inr (List.mem_cons_of_mem e h)
        · rcases List.mem_cons.1 hm with hm | hm
          · exact Or.inr (hm ▸ List.mem_cons_self e _)
          · rcases ih res hInv1 (fun hne f hf => hInv2 hne f (List.mem_cons_of_mem e hf))
              hpw.of_cons (Or.inr hm) with h | h
            · exact Or.inl h
            · exact Or.inr (List.mem_cons_of_mem e h)
      | some r =>
        simp only
        have hshape := can_merge_some_shape res e r hcm
          (fun hne => hInv2 hne e (List.mem_cons_self e t))
        rcases hshape with ⟨hpure, hin1, hin2, hre⟩ | ⟨hepure, hre⟩
        all_goals rw [hre]
        · -- first branch: the pure candidate is absorbed into `e`
          have hresp : res = (p, p) := hInv1 hpure
          have hInv1' : e.1 = e.2 → e = (p, p) := by
            intro he
            have h1 : posLe e.1 p := by
              have := hin1
              rw [hresp] at this
              rwa [rMin, ← he, posMin_self] at this
            have h2 : posLe p e.1 := by
              have := hin2
              rw [hresp] at this
              rwa [rMax, ← he, posMax_self] at this
            have : e.1 = p := posLe_antisymm h1 h2
            cases e with
            | mk e1 e2 => simp_all
          have hInv2' : e.1 ≠ e.2 → ∀ f ∈ t, ¬ properOverlap e f := by
            intro _ f hf
            exact List.rel_of_pairwise_cons hpw hf
          rcases hm with hm | hm
          · exfalso
            apply hnd
            rw [← hm, hresp]
          · rcases List.mem_cons.1 hm with hm | hm
            · exact ih e hInv1' hInv2' hpw.of_cons (Or.inl hm.symm)
            · exact ih e hInv1' hInv2' hpw.of_cons (Or.inr hm)
        · -- second branch: the pure visited entry is absorbed, `res` kept
          have hInv2' : res.1 ≠ res.2 → ∀ f ∈ t, ¬ properOverlap res f :=
            fun hne f hf => hInv2 hne f (List.mem_cons_of_mem e hf)
          rcases hm with hm | hm
          · exact ih res hInv1 hInv2' hpw.of_cons (Or.inl hm)
          · rcases List.mem_cons.1 hm with hm | hm
            · exact absurd (hm ▸ hepure) hnd
            · exact ih res hInv1 hInv2' hpw.of_cons (Or.inr hm)
    case isFalse =>
      simpa using hm

/-- C4.  Merge-inserting a pure caret `(p, p)` into a set free of proper
range overlaps, when `p` lies in the closed range of an existing entry `E`
with `anchor != selection_end`, leaves an entry with exactly `E`'s
`(anchor, selection_end)` pair in the resulting set: every merge the scan
performs with such an `E` takes the caret-absorption branch of
`can_merge_selection`, which returns `E`'s pair unchanged, and entries the
scan does not visit are kept verbatim. -/
theorem caret_absorbed_entry_preserved (mp : List Entry) (E : Entry) (p : CaretPosition)
    (hpw : mp.Pairwise fun a b => ¬ properOverlap a b)
    (hE : E ∈ mp) (hnd : E.1 ≠ E.2)
    (h1 : posLe (rMin E) p) (h2 : posLe p (rMax E)) :
    E ∈ add_caret mp (p, p) := by
  unfold add_caret
  set m := rMin ((p, p) : Entry) with hm
  set pre := mp.takeWhile (fun e => decide (posLt e.1 m)) with hpre
  set suf := mp.dropWhile (fun e => decide (posLt e.1 m)) with hsuf
  have hsplit : pre ++ suf = mp := by
    rw [hpre, hsuf]
    exact List.takeWhile_append_dropWhile _ _
  have hpre_split : pre.dropLast ++ pre.drop (pre.length - 1) = pre := by
    rw [List.dropLast_eq_take, List.take_append_drop]
  have hwin_sub : (pre.drop (pre.length - 1) ++ suf).Sublist mp := by
    rw [← hsplit]
    exact List.Sublist.append (List.drop_sublist _ _) (List.Sublist.refl _)
  have hpw_win : (pre.drop (pre.length - 1) ++ suf).Pairwise fun a b => ¬ properOverlap a b :=
    hpw.sublist hwin_sub
  have hInv1 : ((p, p) : Entry).1 = ((p, p) : Entry).2 → ((p, p) : Entry) = (p, p) :=
    fun _ => rfl
  have hInv2 : ((p, p) : Entry).1 ≠ ((p, p) : Entry).2 →
      ∀ e ∈ pre.drop (pre.length - 1) ++ suf, ¬ properOverlap (p, p) e :=
    fun hne => absurd rfl hne
  have hEmem : E ∈ pre ∨ E ∈ suf := by
    rw [← List.mem_append, hsplit]
    exact hE
  rcases hEmem with hEpre | hEsuf
  · have : E ∈ pre.dropLast ∨ E ∈ pre.drop (pre.length - 1) := by
      rw [← List.mem_append, hpre_split]
      exact hEpre
    rcases this with hEd | hEw
    · exact mem_insertUB_of_mem _ (List.mem_append_left _ hEd)
    · have hscan := merge_scan_keeps p E hnd (rMax ((p, p) : Entry))
        (pre.drop (pre.length - 1) ++ suf) (p, p) hInv1 hInv2 hpw_win
        (Or.inr (List.mem_append_left _ hEw))
      rcases hscan with h | h
      · exact h ▸ mem_insertUB_self _ _
      · exact mem_insertUB_of_mem _ (List.mem_append_right _ h)
  · have hscan := merge_scan_keeps p E hnd (rMax ((p, p) : Entry))
      (pre.drop (pre.length - 1) ++ suf) (p, p) hInv1 hInv2 hpw_win
      (Or.inr (List.mem_append_right _ hEsuf))
    rcases hscan with h | h
    · exact h ▸ mem_insertUB_self _ _
    · exact mem_insertUB_of_mem _ (List.mem_append_right _ h)

/-- Witness for `caret_absorbed_entry_preserved`: the caret `(0,3)` lands
inside the selection `(0,1)-(0,5)` of a singleton set and that entry's pair
survives the merge-insert. -/
theorem caret_absorbed_entry_preserved_witness :
    ((⟨0, 1⟩, ⟨0, 5⟩) : Entry) ∈
      add_caret [(⟨0, 1⟩, ⟨0, 5⟩)] (⟨0, 3⟩, ⟨0, 3⟩) :=
  caret_absorbed_entry_preserved [(⟨0, 1⟩, ⟨0, 5⟩)] (⟨0, 1⟩, ⟨0, 5⟩) ⟨0, 3⟩
    (List.pairwise_singleton _ _) (List.mem_singleton_self _) (by decide)
    (by decide) (by decide)

/-! ### The multi-cursor edit transaction (`_modify_iterator`,
codebox.h:635-821) -/

/-- The editor configuration and state a transaction starts from:
`editor_context` document, configured line ending `_le`, insert/overwrite
mode `_insert`, and the live caret set `_cset.carets` (key-sorted).
`_cset.selecting` is `false` in every run modelled here. -/
structure EditorState where
  doc : List Block
  le : LineEnding
  insertMode : Bool
  carets : List Entry
deriving Repr

/-- The state of a running `_modify_iterator` (codebox.h:774-783).  The
remaining part of the old caret set (from `_cur` on) is `pending`; its head
is the caret `_cur` references. -/
structure TxState where
  doc : List Block
  le : LineEnding
  insertMode : Bool
  newcs : List Entry
  lit : LineIt
  dx : Int
  dy : Int
  ly : Nat
  pending : List Entry
  rpos : Entry
  smin : CaretPosition
  smax : CaretPosition
  modifiedFlag : Bool
deriving Repr

/-- Mirrors `_modify_iterator::_fixup_pos` (codebox.h:785): add the line
delta, then the column delta when the adjusted line is the tracked line.
`Int.toNat` stands for `static_cast<size_t>` (they agree for nonnegative
results, which is the case in every run below). -/
def fixup_pos (s : TxState) (pos : CaretPosition) : CaretPosition :=
  let l := ((pos.line : Int) + s.dy).toNat
  if l = s.ly then ⟨l, ((pos.column : Int) + s.dx).toNat⟩ else ⟨l, pos.column⟩

/-- Mirrors `_modify_iterator::_on_set_rpos` (codebox.h:792): recompute the
span `[smin, smax]` from `rpos`; when the span's line differs from the
tracked line, reset the column delta and re-fetch the line handle. -/
def on_set_rpos (s : TxState) : TxState :=
  let mn := posMin s.rpos.1 s.rpos.2
  let mx := posMax s.rpos.1 s.rpos.2
  let s' := { s with smin := mn, smax := mx }
  if s'.ly ≠ mn.line then
    { s' with dx := 0, ly := mn.line, lit := docAt s'.doc mn.line }
  else s'

/-- Mirrors `_modify_iterator::start` (codebox.h:749): `_lit := begin()`,
`_cur := carets.begin()`, `_rpos := *_cur`, then `_on_set_rpos`
(`_cset.selecting` is false in the runs modelled). -/
def start_tx (ed : EditorState) : TxState :=
  on_set_rpos
    { doc := ed.doc, le := ed.le, insertMode := ed.insertMode, newcs := [],
      lit := (0, 0), dx := 0, dy := 0, ly := 0, pending := ed.carets,
      rpos := ed.carets.headD (⟨0, 0⟩, ⟨0, 0⟩), smin := ⟨0, 0⟩, smax := ⟨0, 0⟩,
      modifiedFlag := false }

/-- Mirrors `_modify_iterator::next` (codebox.h:640): merge-insert `_rpos`
into the output set, advance `_cur`, fix up the next caret's two positions
with the accumulated deltas and recompute the span.  (The baseline
recomputation after a merge is rendering-only and not modelled.) -/
def next_tx (s : TxState) : TxState :=
  let ncs := add_caret s.newcs s.rpos
  match s.pending with
  | [] => { s with newcs := ncs }
  | _ :: rest =>
    match rest with
    | [] => { s with newcs := ncs, pending := rest }
    | c :: _ =>
      let s' := { s with newcs := ncs, pending := rest }
      on_set_rpos { s' with rpos := (fixup_pos s' c.1, fixup_pos s' c.2) }

/-- `_modify_iterator::ended` (codebox.h:637): `_cur == carets.end()`. -/
def tx_ended (s : TxState) : Bool := s.pending.isEmpty

/-- The result visible after `_modify_iterator::end` (codebox.h:763): the
output set replaces the live caret set, and the "document modified" event
fires iff `_modified` was set.  (Selection-cache rebuild and scrolling are
rendering concerns.) -/
structure TxResult where
  doc : List Block
  cset : List Entry
  notified : Bool
deriving Repr

def end_tx (s : TxState) : TxResult :=
  { doc := s.doc, cset := s.newcs, notified := s.modifiedFlag }

/-- Modify the line an iterator references, in place. -/
def docModifyLine (doc : List Block) (it : LineIt) (f : Line → Line) : List Block :=
  modifyAt (modifyAt f it.2) it.1 doc

/-- Mirrors `_modify_iterator::_delete_selection` (codebox.h:803).  The
middle-line erasure loop `for (; _smin.line + 1 < _smax.line; --_smax.line)
erase_after(_lit);` runs `smax.line - smin.line - 1` times. -/
def span_loop (lit : LineIt) : Nat → List Block → List Block
  | 0, doc => doc
  | k + 1, doc => span_loop lit k (erase_after doc lit)

def delete_selection (s : TxState) : TxState :=
  let s' :=
    if s.smin.line = s.smax.line then
      { s with doc := docModifyLine s.doc s.lit (fun l =>
          ⟨l.content.take s.smin.column ++ l.content.drop s.smax.column, l.ending_type⟩) }
    else
      let doc1 := span_loop s.lit (s.smax.line - s.smin.line - 1) s.doc
      let nlIt := itInc doc1 s.lit
      let nl := itLine doc1 nlIt
      let doc2 := docModifyLine doc1 s.lit (fun l =>
        ⟨l.content.take s.smin.column ++ nl.content.drop s.smax.column, nl.ending_type⟩)
      { s with
        doc := erase_after doc2 s.lit,
        dy := s.dy - ((s.smax.line - s.smin.line : Nat) : Int) }
  { s' with
    dx := s'.dx - (((s.smax.column : Int)) - (s.smin.column : Int)),
    smax := s.smin, smin := s.smin, rpos := (s.smin, s.smin) }

/-- The body of `_modify_iterator::insert_char` after the initial
selection deletion (codebox.h:660-682): `'\n'` splits the current line
(the first part takes the editor's configured ending `_le`, the successor
keeps the original tag); any other character is inserted — or overwrites
in overwrite mode when there was no selection (`hadSel`) and the caret is
not at line end. -/
def insert_char_core (c : Char) (hadSel : Bool) (s : TxState) : TxState :=
  if c = '\n' then
    let ln := itLine s.doc s.lit
    let ins := insert_after s.doc s.lit ⟨ln.content.drop s.smin.column, ln.ending_type⟩
    let doc2 := docModifyLine ins.1 s.lit (fun l => ⟨l.content.take s.smin.column, s.le⟩)
    let nmin : CaretPosition := ⟨s.smin.line + 1, 0⟩
    { s with
      doc := doc2, dy := s.dy + 1, ly := s.ly + 1,
      dx := s.dx - (s.smin.column : Int), lit := ins.2,
      smin := nmin, smax := nmin, rpos := (nmin, nmin) }
  else
    let ln := itLine s.doc s.lit
    let s :=
      if s.insertMode || hadSel || decide (s.smin.column = ln.content.length) then
        { s with
          doc := docModifyLine s.doc s.lit (fun l =>
            ⟨insertAt s.smin.column c l.content, l.ending_type⟩),
          dx := s.dx + 1 }
      else
        { s with doc := docModifyLine s.doc s.lit (fun l =>
            ⟨l.content.set s.smin.column c, l.ending_type⟩) }
    let nmin : CaretPosition := ⟨s.smin.line, s.smin.column + 1⟩
    { s with smin := nmin, smax := nmin, rpos := (nmin, nmin) }

/-- Mirrors `_modify_iterator::insert_char` (codebox.h:654): set
`_modified`, remember whether there was a selection, delete it if so, then
run the insertion body. -/
def insert_char (c : Char) (s : TxState) : TxState :=
  let s := { s with modifiedFlag := true }
  let hadSel := decide (s.smin ≠ s.smax)
  let s := if s.smin ≠ s.smax then delete_selection s else s
  insert_char_core c hadSel s

/-- Mirrors `_modify_iterator::delete_char_before` (codebox.h:684).  Note
`_modified` is set before any of the guards; at `(0,0)` with no selection
nothing else happens. -/
def delete_char_before (s : TxState) : TxState :=
  let s := { s with modifiedFlag := true }
  if s.smin ≠ s.smax then delete_selection s
  else if s.smin ≠ ⟨0, 0⟩ then
    let s' :=
      if s.smin.column = 0 then
        let prevIt := itDec s.doc s.lit
        let prevLn := itLine s.doc prevIt
        let litLn := itLine s.doc s.lit
        let doc1 := docModifyLine s.doc prevIt (fun l =>
          ⟨l.content ++ litLn.content, litLn.ending_type⟩)
        { s with
          doc := erase_after doc1 prevIt, lit := prevIt,
          smin := ⟨s.smin.line - 1, prevLn.content.length⟩,
          dy := s.dy - 1, ly := s.ly - 1,
          dx := s.dx + (prevLn.content.length : Int) }
      else
        { s with
          dx := s.dx - 1, smin := ⟨s.smin.line, s.smin.column - 1⟩,
          doc := docModifyLine s.doc s.lit (fun l =>
            ⟨removeAt (s.smin.column - 1) l.content, l.ending_type⟩) }
    { s' with smax := s'.smin, rpos := (s'.smin, s'.smin) }
  else s

/-- Mirrors `_modify_iterator::delete_char_after` (codebox.h:711).  In the
plain-deletion case the column delta decreases by one and everything else
(including `_rpos`) is untouched; the line merge adopts the successor's
ending tag and erases the successor through `editor_context::erase`. -/
def delete_char_after (s : TxState) : TxState :=
  let s := { s with modifiedFlag := true }
  if s.smin ≠ s.smax then delete_selection s
  else
    let ln := itLine s.doc s.lit
    if s.smin.column < ln.content.length then
      { s with
        dx := s.dx - 1,
        doc := docModifyLine s.doc s.lit (fun l =>
          ⟨removeAt s.smin.column l.content, l.ending_type⟩) }
    else if s.smin.line + 1 < num_lines s.doc then
      let nextIt := itInc s.doc s.lit
      let nextLn := itLine s.doc nextIt
      let doc1 := docModifyLine s.doc s.lit (fun l =>
        ⟨l.content ++ nextLn.content, nextLn.ending_type⟩)
      { s with
        dy := s.dy - 1, dx := s.dx + (ln.content.length : Int),
        doc := (ctx_erase doc1 nextIt).1 }
    else s

/-- One edit or movement command, as issued per caret by the key handlers
(codebox.h:1065-1162). -/
inductive Command where
  | insertChar (c : Char)
  | deleteBefore
  | deleteAfter
  | moveTo (p : CaretPosition)
  | moveToWithSel (p : CaretPosition)

/-- Whether a command is one of the three text-edit commands (each of which
sets `_modified` unconditionally on entry). -/
def isEdit : Command → Bool
  | Command.insertChar _ => true
  | Command.deleteBefore => true
  | Command.deleteAfter => true
  | Command.moveTo _ => false
  | Command.moveToWithSel _ => false

/-- Apply one command at the current caret.  `move_to` (codebox.h:732) sets
`_rpos` to the target; `move_to_with_selection` (codebox.h:735) keeps the
raw `_cur->second.selection_end` as the fixed end (baselines dropped). -/
def applyCommand : Command → TxState → TxState
  | Command.insertChar c, s => insert_char c s
  | Command.deleteBefore, s => delete_char_before s
  | Command.deleteAfter, s => delete_char_after s
  | Command.moveTo p, s => { s with rpos := (p, p) }
  | Command.moveToWithSel p, s =>
    { s with rpos := (p, (s.pending.headD (⟨0, 0⟩, ⟨0, 0⟩)).2) }

/-- The driver loop pattern
`for (_modify_iterator_rsrc it(*this); !it->ended(); it->next()) it->cmd();`
: apply the command and advance, once per caret.  The fuel equals the
number of pending carets, which decreases by one per iteration. -/
def tx_steps (cmd : Command) : Nat → TxState → TxState
  | 0, s => s
  | fuel + 1, s => if tx_ended s then s else tx_steps cmd fuel (next_tx (applyCommand cmd s))

/-- A whole single-command transaction: `start`, the driver loop, `end`. -/
def run_tx (cmd : Command) (ed : EditorState) : TxResult :=
  end_tx (tx_steps cmd ed.carets.length (start_tx ed))

/-! ### C3: simultaneous same-line inserts -/

/-- C3.  Document `"hello"`, pure carets at columns 2 and 4, one
transaction typing `'Z'` at both (insert mode): the resulting line is
`"heZllZo"` and the fixed-up second caret lands at column 6 = 4 (its own
original column) + 1 (its own insertion) + 1 (the earlier caret's
insertion), i.e. exactly the independent-application positions. -/
theorem simultaneous_same_line_insert :
    run_tx (Command.insertChar 'Z')
      { doc := [[⟨['h', 'e', 'l', 'l', 'o'], LineEnding.none⟩]], le := LineEnding.n,
        insertMode := true, carets := [(⟨0, 2⟩, ⟨0, 2⟩), (⟨0, 4⟩, ⟨0, 4⟩)] } =
      { doc := [[⟨['h', 'e', 'Z', 'l', 'l', 'Z', 'o'], LineEnding.none⟩]],
        cset := [(⟨0, 3⟩, ⟨0, 3⟩), (⟨0, 6⟩, ⟨0, 6⟩)], notified := true } := by
  rfl

/-! ### C5: forward delete and the column delta -/

/-- The editor state of the forward-delete example: single line `"abcd"`,
pure caret at column 1. -/
def c5_editor : EditorState :=
  { doc := [[⟨['a', 'b', 'c', 'd'], LineEnding.none⟩]], le := LineEnding.n,
    insertMode := true, carets := [(⟨0, 1⟩, ⟨0, 1⟩)] }

/-- C5 counterexample.  A forward delete at an empty-span caret strictly
before the line end DOES apply a column delta: starting from `_dx = 0`,
`delete_char_after` deletes the character at the caret and leaves
`_dx = -1` (codebox.h:717 `--_dx;`), contradicting the claim that only the
line-merge case changes the running deltas. -/
theorem forward_delete_changes_column_delta :
    (start_tx c5_editor).dx = 0 ∧
    (delete_char_after (start_tx c5_editor)).dx = -1 ∧
    (delete_char_after (start_tx c5_editor)).doc =
      [[⟨['a', 'c', 'd'], LineEnding.none⟩]] := by
  refine ⟨rfl, rfl, rfl⟩

/-- C5 amended.  For a forward delete at a caret with empty span whose
column is strictly before the end of its line, the character at the caret
is deleted and the running column delta decreases by one (so subsequently
processed carets on the same line shift left by one); nothing else in the
transaction state changes apart from the modification flag — in
particular `Δline` and the caret's own position are untouched. -/
theorem delete_char_after_plain (s : TxState) (hsel : s.smin = s.smax)
    (hcol : s.smin.column < (itLine s.doc s.lit).content.length) :
    delete_char_after s =
      { s with
        modifiedFlag := true, dx := s.dx - 1,
        doc := docModifyLine s.doc s.lit (fun l =>
          ⟨removeAt s.smin.column l.content, l.ending_type⟩) } := by
  have h1 : ¬ (s.smin ≠ s.smax) := by simp [hsel]
  simp only [delete_char_after, if_neg h1, if_pos hcol]

/-- Witness for `delete_char_after_plain` at the concrete forward-delete
example state. -/
theorem delete_char_after_plain_witness :
    delete_char_after (start_tx c5_editor) =
      { (start_tx c5_editor) with
        modifiedFlag := true, dx := (start_tx c5_editor).dx - 1,
        doc := docModifyLine (start_tx c5_editor).doc (start_tx c5_editor).lit (fun l =>
          ⟨removeAt (start_tx c5_editor).smin.column l.content, l.ending_type⟩) } :=
  delete_char_after_plain (start_tx c5_editor) rfl (by decide)

/-! ### C6: newline split -/

/-- The editor state of the newline-split example: one line `"abcdef"`,
caret at column 3, configured default line ending `le`. -/
def c6_editor (le : LineEnding) : EditorState :=
  { doc := [[⟨['a', 'b', 'c', 'd', 'e', 'f'], LineEnding.none⟩]], le := le,
    insertMode := true, carets := [(⟨0, 3⟩, ⟨0, 3⟩)] }

/-- C6.  Inserting a newline at column 3 of the one-line document
`"abcdef"` yields `"abc"` tagged with the editor's configured default line
ending and `"def"` keeping the original line's tag (`none` here), with the
running deltas `Δline = 1`, `Δcol = -3` for the shifted current line, and
the finished transaction leaves the caret at `(1,0)`. -/
theorem newline_split (le : LineEnding) :
    (applyCommand (Command.insertChar '\n') (start_tx (c6_editor le))).doc =
      [[⟨['a', 'b', 'c'], le⟩, ⟨['d', 'e', 'f'], LineEnding.none⟩]] ∧
    (applyCommand (Command.insertChar '\n') (start_tx (c6_editor le))).dy = 1 ∧
    (applyCommand (Command.insertChar '\n') (start_tx (c6_editor le))).dx = -3 ∧
    (applyCommand (Command.insertChar '\n') (start_tx (c6_editor le))).ly = 1 ∧
    run_tx (Command.insertChar '\n') (c6_editor le) =
      { doc := [[⟨['a', 'b', 'c'], le⟩, ⟨['d', 'e', 'f'], LineEnding.none⟩]],
        cset := [(⟨1, 0⟩, ⟨1, 0⟩)], notified := true } := by
  refine ⟨rfl, rfl, rfl, rfl, rfl⟩

/-! ### C7: the "document modified" notification -/

theorem delete_selection_flag (s : TxState) :
    (delete_selection s).modifiedFlag = s.modifiedFlag := by
  simp only [delete_selection]
  split <;> rfl

theorem insert_char_core_flag (c : Char) (hadSel : Bool) (s : TxState) :
    (insert_char_core c hadSel s).modifiedFlag = s.modifiedFlag := by
  simp only [insert_char_core]
  repeat' split
  all_goals rfl

theorem insert_char_flag (c : Char) (s : TxState) :
    (insert_char c s).modifiedFlag = true := by
  simp only [insert_char]
  split
  · rw [insert_char_core_flag, delete_selection_flag]
  · rw [insert_char_core_flag]

theorem delete_char_before_flag (s : TxState) :
    (delete_char_before s).modifiedFlag = true := by
  simp only [delete_char_before]
  repeat' split
  all_goals simp [delete_selection_flag]

theorem delete_char_after_flag (s : TxState) :
    (delete_char_after s).modifiedFlag = true := by
  simp only [delete_char_after]
  repeat' split
  all_goals simp [delete_selection_flag]

theorem applyCommand_flag (cmd : Command) (s : TxState) :
    (applyCommand cmd s).modifiedFlag = (isEdit cmd || s.modifiedFlag) := by
  cases cmd with
  | insertChar c => simp [applyCommand, isEdit, insert_char_flag]
  | deleteBefore => simp [applyCommand, isEdit, delete_char_before_flag]
  | deleteAfter => simp [applyCommand, isEdit, delete_char_after_flag]
  | moveTo p => simp [applyCommand, isEdit]
  | moveToWithSel p => simp [applyCommand, isEdit]

theorem on_set_rpos_flag (s : TxState) :
    (on_set_rpos s).modifiedFlag = s.modifiedFlag := by
  simp only [on_set_rpos]
  split <;> rfl

theorem next_tx_flag (s : TxState) :
    (next_tx s).modifiedFlag = s.modifiedFlag := by
  simp only [next_tx]
  cases s.pending with
  | nil => rfl
  | cons c rest =>
    cases rest with
    | nil => rfl
    | cons d t => rw [on_set_rpos_flag]

theorem tx_steps_flag (cmd : Command) :
    ∀ (fuel : Nat) (s : TxState),
      (tx_steps cmd fuel s).modifiedFlag =
        (s.modifiedFlag || (isEdit cmd && !(tx_ended s) && !(fuel = 0 : Bool))) := by
  intro fuel
  induction fuel with
  | zero => intro s; simp [tx_steps]
  | succ n ih =>
    intro s
    rw [tx_steps]
    split
    case isTrue h => simp [h]
    case isFalse h =>
      rw [ih, next_tx_flag, applyCommand_flag]
      cases hE : isEdit cmd <;> simp [h, hE]

theorem start_tx_pending (ed : EditorState) : (start_tx ed).pending = ed.carets := by
  simp only [start_tx, on_set_rpos]
  split <;> rfl

theorem start_tx_flag (ed : EditorState) : (start_tx ed).modifiedFlag = false := by
  simp only [start_tx, on_set_rpos]
  split <;> rfl

/-- The editor state of the backspace-at-origin example: a single empty
line, pure caret at `(0,0)`. -/
def origin_editor : EditorState :=
  { doc := [[⟨[], LineEnding.none⟩]], le := LineEnding.n,
    insertMode := true, carets := [(⟨0, 0⟩, ⟨0, 0⟩)] }

/-- C7 counterexample.  A transaction whose only command is a backspace at
`(0,0)` of a one-empty-line document mutates nothing — document and caret
set come out unchanged — and yet the "document modified" notification IS
emitted: `delete_char_before` sets `_modified = true` before any guard
(codebox.h:685), so `end()` fires the event (codebox.h:767). -/
theorem backspace_at_origin_still_notifies :
    run_tx Command.deleteBefore origin_editor =
      { doc := origin_editor.doc, cset := origin_editor.carets, notified := true } := by
  rfl

/-- C7 amended.  The notification fires iff the transaction issued at least
one edit command (insert/backspace/forward delete) — regardless of whether
that command actually mutated text; movement commands never fire it.  In
particular the backspace-at-origin transaction leaves the document and the
caret set unchanged but still notifies. -/
theorem notified_iff_edit_command (ed : EditorState) (cmd : Command)
    (h : ed.carets ≠ []) :
    ((run_tx cmd ed).notified = isEdit cmd) ∧
    (run_tx Command.deleteBefore origin_editor).doc = origin_editor.doc ∧
    (run_tx Command.deleteBefore origin_editor).cset = origin_editor.carets ∧
    (run_tx Command.deleteBefore origin_editor).notified = true := by
  refine ⟨?_, rfl, rfl, rfl⟩
  show (tx_steps cmd ed.carets.length (start_tx ed)).modifiedFlag = isEdit cmd
  rw [tx_steps_flag, start_tx_flag]
  have hend : tx_ended (start_tx ed) = false := by
    simp [tx_ended, start_tx_pending, h]
  have hfuel : (ed.carets.length = 0 : Bool) = false := by
    simp [List.length_eq_zero, h]
  simp [hend, hfuel]
  exact fun _ => h

/-- Witness for `notified_iff_edit_command`: instantiated at the
backspace-at-origin editor state. -/
theorem notified_iff_edit_command_witness :
    ((run_tx Command.deleteBefore origin_editor).notified = isEdit Command.deleteBefore) ∧
    (run_tx Command.deleteBefore origin_editor).doc = origin_editor.doc ∧
    (run_tx Command.deleteBefore origin_editor).cset = origin_editor.carets ∧
    (run_tx Command.deleteBefore origin_editor).notified = true :=
  notified_iff_edit_command origin_editor Command.deleteBefore (by decide)

/-! ### Generic list lemmas for the block/line simulation -/

section ListLemmas

variable {α : Type}

theorem modifyAt_nil (g : α → α) (j : Nat) : modifyAt g j ([] : List α) = [] := by
  cases j <;> rfl

theorem removeAt_nil (j : Nat) : removeAt j ([] : List α) = [] := by
  cases j <;> rfl

theorem length_modifyAt (g : α → α) : ∀ (j : Nat) (l : List α),
    (modifyAt g j l).length = l.length := by
  intro j
  induction j with
  | zero => intro l; cases l <;> simp [modifyAt]
  | succ n ih => intro l; cases l <;> simp [modifyAt, ih]

theorem length_removeAt : ∀ (j : Nat) (l : List α), j < l.length →
    (removeAt j l).length = l.length - 1 := by
  intro j
  induction j with
  | zero => intro l h; cases l <;> simp_all [removeAt]
  | succ n ih =>
    intro l h
    cases l with
    | nil => simp at h
    | cons x xs =>
      simp only [removeAt, List.length_cons]
      rw [ih xs (by simpa using h)]
      simp at h
      omega

theorem length_insertAt (x : α) : ∀ (j : Nat) (l : List α), j ≤ l.length →
    (insertAt j x l).length = l.length + 1 := by
  intro j
  induction j with
  | zero => intro l _; cases l <;> simp [insertAt]
  | succ n ih =>
    intro l h
    cases l with
    | nil => simp at h
    | cons y ys => simp only [insertAt, List.length_cons]; rw [ih ys (by simpa using h)]

theorem insertAt_ne_nil (x : α) (j : Nat) (l : List α) : insertAt j x l ≠ [] := by
  cases j <;> cases l <;> simp [insertAt]

theorem modifyAt_decomp (g : α → α) (d : α) : ∀ (j : Nat) (l : List α), j < l.length →
    modifyAt g j l = l.take j ++ g (l.getD j d) :: l.drop (j + 1) := by
  intro j
  induction j with
  | zero => intro l h; cases l <;> simp_all [modifyAt]
  | succ n ih =>
    intro l h
    cases l with
    | nil => simp at h
    | cons x xs => simp only [modifyAt, List.take_succ_cons, List.drop_succ_cons,
        List.getD_cons_succ, List.cons_append, List.cons.injEq, true_and]
                   exact ih xs (by simpa using h)

theorem removeAt_decomp : ∀ (j : Nat) (l : List α), j < l.length →
    removeAt j l = l.take j ++ l.drop (j + 1) := by
  intro j
  induction j with
  | zero => intro l h; cases l <;> simp_all [removeAt]
  | succ n ih =>
    intro l h
    cases l with
    | nil => simp at h
    | cons x xs => simp only [removeAt, List.take_succ_cons, List.drop_succ_cons,
        List.cons_append, List.cons.injEq, true_and]
                   exact ih xs (by simpa using h)

theorem insertAt_decomp (x : α) : ∀ (j : Nat) (l : List α), j ≤ l.length →
    insertAt j x l = l.take j ++ x :: l.drop j := by
  intro j
  induction j with
  | zero => intro l _; cases l <;> simp [insertAt]
  | succ n ih =>
    intro l h
    cases l with
    | nil => simp at h
    | cons y ys => simp only [insertAt, List.take_succ_cons, List.drop_succ_cons,
        List.cons_append, List.cons.injEq, true_and]
                   exact ih ys (by simpa using h)

theorem take_decomp (d : α) : ∀ (j : Nat) (l : List α), j < l.length →
    l = l.take j ++ l.getD j d :: l.drop (j + 1) := by
  intro j
  induction j with
  | zero => intro l h; cases l <;> simp_all
  | succ n ih =>
    intro l h
    cases l with
    | nil => simp at h
    | cons x xs =>
      simp only [List.take_succ_cons, List.drop_succ_cons, List.getD_cons_succ,
        List.cons_append, List.cons.injEq, true_and]
      exact ih xs (by simpa using h)

theorem insertAt_append_left (x : α) : ∀ (j : Nat) (C B : List α), j ≤ C.length →
    insertAt j x (C ++ B) = insertAt j x C ++ B := by
  intro j
  induction j with
  | zero => intro C B _; cases C <;> simp [insertAt]
  | succ n ih =>
    intro C B h
    cases C with
    | nil => simp at h
    | cons c cs => simp only [List.cons_append, insertAt, List.cons.injEq, true_and]
                   exact ih cs B (by simpa using h)

theorem insertAt_append_right (x : α) : ∀ (A C : List α) (j : Nat),
    insertAt (A.length + j) x (A ++ C) = A ++ insertAt j x C := by
  intro A
  induction A with
  | nil => intro C j; simp
  | cons a as ih =>
    intro C j
    have : as.length + 1 + j = (as.length + j) + 1 := by omega
    simp only [List.length_cons, List.cons_append, this, insertAt, List.cons.injEq, true_and]
    exact ih C j

theorem removeAt_append_left : ∀ (j : Nat) (C B : List α), j < C.length →
    removeAt j (C ++ B) = removeAt j C ++ B := by
  intro j
  induction j with
  | zero => intro C B h; cases C <;> simp_all [removeAt]
  | succ n ih =>
    intro C B h
    cases C with
    | nil => simp at h
    | cons c cs => simp only [List.cons_append, removeAt, List.cons.injEq, true_and]
                   exact ih cs B (by simpa using h)

theorem removeAt_append_right : ∀ (A C : List α) (j : Nat),
    removeAt (A.length + j) (A ++ C) = A ++ removeAt j C := by
  intro A
  induction A with
  | nil => intro C j; simp
  | cons a as ih =>
    intro C j
    have : as.length + 1 + j = (as.length + j) + 1 := by omega
    simp only [List.length_cons, List.cons_append, this, removeAt, List.cons.injEq, true_and]
    exact ih C j

theorem modifyAt_append_left (g : α → α) : ∀ (j : Nat) (C B : List α), j < C.length →
    modifyAt g j (C ++ B) = modifyAt g j C ++ B := by
  intro j
  induction j with
  | zero => intro C B h; cases C <;> simp_all [modifyAt]
  | succ n ih =>
    intro C B h
    cases C with
    | nil => simp at h
    | cons c cs => simp only [List.cons_append, modifyAt, List.cons.injEq, true_and]
                   exact ih cs B (by simpa using h)

theorem modifyAt_append_right (g : α → α) : ∀ (A C : List α) (j : Nat),
    modifyAt g (A.length + j) (A ++ C) = A ++ modifyAt g j C := by
  intro A
  induction A with
  | nil => intro C j; simp
  | cons a as ih =>
    intro C j
    have : as.length + 1 + j = (as.length + j) + 1 := by omega
    simp only [List.length_cons, List.cons_append, this, modifyAt, List.cons.injEq, true_and]
    exact ih C j

theorem getD_append_right' (d : α) : ∀ (A C : List α) (j : Nat),
    (A ++ C).getD (A.length + j) d = C.getD j d := by
  intro A
  induction A with
  | nil => intro C j; simp
  | cons a as ih =>
    intro C j
    have : as.length + 1 + j = (as.length + j) + 1 := by omega
    simp only [List.length_cons, List.cons_append, this, List.getD_cons_succ]
    exact ih C j

theorem getD_append_left' (d : α) : ∀ (A C : List α) (j : Nat), j < A.length →
    (A ++ C).getD j d = A.getD j d := by
  intro A
  induction A with
  | nil => intro C j h; simp at h
  | cons a as ih =>
    intro C j h
    cases j with
    | zero => simp
    | succ n => simp only [List.cons_append, List.getD_cons_succ]
                exact ih C n (by simpa using h)

theorem getD_removeAt_lt (d : α) : ∀ (i j : Nat) (l : List α), j < i →
    (removeAt i l).getD j d = l.getD j d := by
  intro i
  induction i with
  | zero => intro j l h; omega
  | succ n ih =>
    intro j l h
    cases l with
    | nil => rfl
    | cons x xs =>
      cases j with
      | zero => rfl
      | succ m => simp only [removeAt, List.getD_cons_succ]; exact ih m xs (by omega)

theorem getD_removeAt_ge (d : α) : ∀ (i j : Nat) (l : List α), i ≤ j →
    (removeAt i l).getD j d = l.getD (j + 1) d := by
  intro i
  induction i with
  | zero =>
    intro j l _
    cases l with
    | nil => cases j <;> rfl
    | cons x xs => rfl
  | succ n ih =>
    intro j l h
    cases l with
    | nil => cases j <;> rfl
    | cons x xs =>
      cases j with
      | zero => omega
      | succ m => simp only [removeAt, List.getD_cons_succ]; exact ih m xs (by omega)

theorem getD_modifyAt_self (g : α → α) (d : α) : ∀ (j : Nat) (l : List α), j < l.length →
    (modifyAt g j l).getD j d = g (l.getD j d) := by
  intro j
  induction j with
  | zero => intro l h; cases l <;> simp_all [modifyAt]
  | succ n ih =>
    intro l h
    cases l with
    | nil => simp at h
    | cons x xs => simp only [modifyAt, List.getD_cons_succ]; exact ih xs (by simpa using h)

theorem getD_modifyAt_ne (g : α → α) (d : α) : ∀ (i j : Nat) (l : List α), i ≠ j →
    (modifyAt g i l).getD j d = l.getD j d := by
  intro i
  induction i with
  | zero =>
    intro j l h
    cases l with
    | nil => rfl
    | cons x xs => cases j with
      | zero => omega
      | succ m => rfl
  | succ n ih =>
    intro j l h
    cases l with
    | nil => rfl
    | cons x xs =>
      cases j with
      | zero => rfl
      | succ m => simp only [modifyAt, List.getD_cons_succ]; exact ih m xs (by omega)

theorem take_modifyAt_le (g : α → α) : ∀ (b j : Nat) (l : List α), b ≤ j →
    (modifyAt g j l).take b = l.take b := by
  intro b
  induction b with
  | zero => intro j l _; simp
  | succ n ih =>
    intro j l h
    cases l with
    | nil => rw [modifyAt_nil]
    | cons x xs =>
      cases j with
      | zero => omega
      | succ m => simp only [modifyAt, List.take_succ_cons, List.cons.injEq, true_and]
                  exact ih m xs (by omega)

theorem take_removeAt_le : ∀ (b j : Nat) (l : List α), b ≤ j →
    (removeAt j l).take b = l.take b := by
  intro b
  induction b with
  | zero => intro j l _; simp
  | succ n ih =>
    intro j l h
    cases l with
    | nil => rw [removeAt_nil]
    | cons x xs =>
      cases j with
      | zero => omega
      | succ m => simp only [removeAt, List.take_succ_cons, List.cons.injEq, true_and]
                  exact ih m xs (by omega)

theorem removeAt_modifyAt_self (g : α → α) : ∀ (j : Nat) (l : List α),
    removeAt j (modifyAt g j l) = removeAt j l := by
  intro j
  induction j with
  | zero => intro l; cases l <;> rfl
  | succ n ih =>
    intro l
    cases l with
    | nil => rfl
    | cons x xs => simp only [modifyAt, removeAt, List.cons.injEq, true_and]; exact ih xs

theorem mem_removeAt : ∀ (j : Nat) (l : List α) (x : α), x ∈ removeAt j l → x ∈ l := by
  intro j
  induction j with
  | zero =>
    intro l x h
    cases l with
    | nil => cases h
    | cons y ys => exact List.mem_cons_of_mem y h
  | succ n ih =>
    intro l x h
    cases l with
    | nil => cases h
    | cons y ys =>
      rcases List.mem_cons.1 h with h | h
      · exact h ▸ List.mem_cons_self y ys
      · exact List.mem_cons_of_mem y (ih ys x h)

theorem mem_modifyAt_cases (g : α → α) (d : α) : ∀ (j : Nat) (l : List α) (x : α),
    x ∈ modifyAt g j l → x ∈ l ∨ (j < l.length ∧ x = g (l.getD j d)) := by
  intro j
  induction j with
  | zero =>
    intro l x h
    cases l with
    | nil => cases h
    | cons y ys =>
      rcases List.mem_cons.1 h with h | h
      · exact Or.inr ⟨by simp, by simpa using h⟩
      · exact Or.inl (List.mem_cons_of_mem y h)
  | succ n ih =>
    intro l x h
    cases l with
    | nil => cases h
    | cons y ys =>
      rcases List.mem_cons.1 h with h | h
      · exact Or.inl (h ▸ List.mem_cons_self y ys)
      · rcases ih ys x h with h | ⟨h1, h2⟩
        · exact Or.inl (List.mem_cons_of_mem y h)
        · exact Or.inr ⟨by simpa using h1, h2⟩

theorem flatten_append : ∀ (bs cs : List (List α)),
    flatten (bs ++ cs) = flatten bs ++ flatten cs := by
  intro bs
  induction bs with
  | nil => intro cs; rfl
  | cons b t ih => intro cs; simp [flatten, ih]

theorem flatten_ne_nil : ∀ (bs : List (List α)), bs ≠ [] → (∀ b ∈ bs, b ≠ []) →
    flatten bs ≠ [] := by
  intro bs
  cases bs with
  | nil => intro h; exact absurd rfl h
  | cons b t =>
    intro _ hne
    have hb : b ≠ [] := hne b (List.mem_cons_self b t)
    simp only [flatten]
    intro hcon
    exact hb (List.append_eq_nil.1 hcon).1

theorem take_succ_getD (d : α) : ∀ (j : Nat) (l : List α), j < l.length →
    l.take (j + 1) = l.take j ++ [l.getD j d] := by
  intro j
  induction j with
  | zero => intro l h; cases l <;> simp_all
  | succ n ih =>
    intro l h
    cases l with
    | nil => simp at h
    | cons x xs =>
      simp only [List.take_succ_cons, List.getD_cons_succ, List.cons_append, List.cons.injEq,
        true_and]
      exact ih xs (by simpa using h)

theorem getD_mem (d : α) : ∀ (j : Nat) (l : List α), j < l.length → l.getD j d ∈ l := by
  intro j
  induction j with
  | zero =>
    intro l h
    cases l with
    | nil => simp at h
    | cons x xs => exact List.mem_cons_self x xs
  | succ n ih =>
    intro l h
    cases l with
    | nil => simp at h
    | cons x xs =>
      simp only [List.getD_cons_succ]
      exact List.mem_cons_of_mem x (ih xs (by simpa using h))

theorem getD_ofLt (d1 d2 : α) : ∀ (j : Nat) (l : List α), j < l.length →
    l.getD j d1 = l.getD j d2 := by
  intro j
  induction j with
  | zero =>
    intro l h
    cases l with
    | nil => simp at h
    | cons x xs => rfl
  | succ n ih =>
    intro l h
    cases l with
    | nil => simp at h
    | cons x xs => simp only [List.getD_cons_succ]; exact ih xs (by simpa using h)

theorem modifyAt_ge (g : α → α) : ∀ (j : Nat) (l : List α), l.length ≤ j →
    modifyAt g j l = l := by
  intro j
  induction j with
  | zero =>
    intro l h
    cases l with
    | nil => rfl
    | cons x xs => simp at h
  | succ n ih =>
    intro l h
    cases l with
    | nil => rfl
    | cons x xs => simp only [modifyAt, List.cons.injEq, true_and]
                   exact ih xs (by simpa using h)

end ListLemmas

/-! ### Block-to-flat simulation of the line store -/

/-- All blocks of the document are non-empty (blocks are created non-empty
and `_do_erase` removes a block the moment it empties). -/
def blocksNE (doc : List Block) : Prop := ∀ blk ∈ doc, blk ≠ []

theorem flatten_take_decomp (doc : List Block) (b : Nat) (h : b < doc.length) :
    flatten doc = flatten (doc.take b) ++ doc.getD b [] ++ flatten (doc.drop (b + 1)) := by
  have hd := take_decomp ([] : Block) b doc h
  calc flatten doc = flatten (doc.take b ++ doc.getD b [] :: doc.drop (b + 1)) := by rw [← hd]
  _ = _ := by rw [flatten_append]; simp [flatten, List.append_assoc]

theorem num_lines_eq (doc : List Block) : num_lines doc = (flatten doc).length := by
  induction doc with
  | nil => rfl
  | cons b t ih => simp [num_lines, flatten, ih]

theorem flatten_singleton (blk : Block) : flatten [blk] = blk := by
  simp [flatten]

theorem length_flatten_decomp (doc : List Block) (b : Nat) (h : b < doc.length) :
    (flatten doc).length =
      (flatten (doc.take b)).length + blockLen doc b +
        (flatten (doc.drop (b + 1))).length := by
  rw [flatten_take_decomp doc b h]
  simp only [List.length_append]
  unfold blockLen
  omega

theorem length_flatten_take_succ (doc : List Block) (b : Nat) (h : b < doc.length) :
    (flatten (doc.take (b + 1))).length =
      (flatten (doc.take b)).length + blockLen doc b := by
  rw [take_succ_getD ([] : Block) b doc h, flatten_append, flatten_singleton,
    List.length_append]
  rfl

theorem flatIdx_lt (doc : List Block) (it : LineIt) (h : itValid doc it) :
    flatIdx doc it < (flatten doc).length := by
  obtain ⟨hb, hl⟩ := h
  have hlen := length_flatten_decomp doc it.1 hb
  unfold flatIdx
  omega

theorem flat_modifyLine (doc : List Block) (it : LineIt) (f : Line → Line)
    (h : itValid doc it) :
    flatten (docModifyLine doc it f) = modifyAt f (flatIdx doc it) (flatten doc) := by
  obtain ⟨hb, hl⟩ := h
  have hdoc := flatten_take_decomp doc it.1 hb
  have hmod : docModifyLine doc it f =
      doc.take it.1 ++ modifyAt f it.2 (doc.getD it.1 []) :: doc.drop (it.1 + 1) :=
    modifyAt_decomp _ ([]) it.1 doc hb
  have hl' : it.2 < (doc.getD it.1 []).length := hl
  rw [hmod, flatten_append]
  simp only [flatten]
  rw [hdoc]
  show _ = modifyAt f ((flatten (doc.take it.1)).length + it.2) _
  rw [List.append_assoc, modifyAt_append_right,
    modifyAt_append_left f it.2 _ _ hl']

theorem flat_insertAfter (doc : List Block) (it : LineIt) (ln : Line)
    (h : itValid doc it) :
    flatten ((insert_after doc it ln).1) =
      insertAt (flatIdx doc it + 1) ln (flatten doc) := by
  obtain ⟨hb, hl⟩ := h
  have hdoc := flatten_take_decomp doc it.1 hb
  have hmod : (insert_after doc it ln).1 =
      doc.take it.1 ++ insertAt (it.2 + 1) ln (doc.getD it.1 []) :: doc.drop (it.1 + 1) :=
    modifyAt_decomp _ ([]) it.1 doc hb
  have hl' : it.2 + 1 ≤ (doc.getD it.1 []).length := hl
  rw [hmod, flatten_append]
  simp only [flatten]
  rw [hdoc]
  show _ = insertAt ((flatten (doc.take it.1)).length + it.2 + 1) ln _
  have : (flatten (doc.take it.1)).length + it.2 + 1 =
      (flatten (doc.take it.1)).length + (it.2 + 1) := by omega
  rw [this, List.append_assoc, insertAt_append_right,
    insertAt_append_left ln (it.2 + 1) _ _ hl']

theorem flat_doErase (doc : List Block) (it : LineIt) (h : itValid doc it) :
    flatten (do_erase doc it) = removeAt (flatIdx doc it) (flatten doc) := by
  obtain ⟨hb, hl⟩ := h
  have hdoc := flatten_take_decomp doc it.1 hb
  have hl' : it.2 < (doc.getD it.1 []).length := hl
  have hget : (modifyAt (removeAt it.2) it.1 doc).getD it.1 [(⟨[], LineEnding.none⟩ : Line)] =
      removeAt it.2 (doc.getD it.1 []) := by
    rw [getD_modifyAt_self _ _ it.1 doc hb]
    rw [getD_ofLt _ ([] : Block) it.1 doc hb]
  have hmod : modifyAt (removeAt it.2) it.1 doc =
      doc.take it.1 ++ removeAt it.2 (doc.getD it.1 []) :: doc.drop (it.1 + 1) :=
    modifyAt_decomp _ ([]) it.1 doc hb
  have hrhs : removeAt (flatIdx doc it) (flatten doc) =
      flatten (doc.take it.1) ++
        (removeAt it.2 (doc.getD it.1 []) ++ flatten (doc.drop (it.1 + 1))) := by
    rw [hdoc]
    show removeAt ((flatten (doc.take it.1)).length + it.2) _ = _
    rw [List.append_assoc, removeAt_append_right,
      removeAt_append_left it.2 _ _ hl']
  simp only [do_erase]
  rw [hget]
  split
  case isTrue hemp =>
    rw [removeAt_modifyAt_self]
    have hrem : removeAt it.1 doc = doc.take it.1 ++ doc.drop (it.1 + 1) :=
      removeAt_decomp it.1 doc hb
    rw [hrem, flatten_append, hrhs]
    rw [List.isEmpty_iff] at hemp
    rw [hemp]
    simp
  case isFalse =>
    rw [hmod, flatten_append, hrhs]
    simp [flatten, List.append_assoc]

theorem blocksNE_modify (doc : List Block) (g : Block → Block) (b : Nat)
    (hne : blocksNE doc) (hg : ∀ blk, blk ≠ [] → g blk ≠ []) :
    blocksNE (modifyAt g b doc) := by
  intro blk hmem
  rcases mem_modifyAt_cases g [] b doc blk hmem with h | ⟨hlt, heq⟩
  · exact hne blk h
  · rw [heq]
    exact hg _ (hne _ (getD_mem [] b doc hlt))

theorem blocksNE_docModifyLine (doc : List Block) (it : LineIt) (f : Line → Line)
    (hne : blocksNE doc) : blocksNE (docModifyLine doc it f) := by
  apply blocksNE_modify _ _ _ hne
  intro blk hblk
  intro hcon
  apply hblk
  have := length_modifyAt f it.2 blk
  rw [hcon] at this
  exact List.length_eq_zero.1 this.symm

theorem blocksNE_insertAfter (doc : List Block) (it : LineIt) (ln : Line)
    (hne : blocksNE doc) : blocksNE ((insert_after doc it ln).1) := by
  apply blocksNE_modify _ _ _ hne
  intro blk _
  exact insertAt_ne_nil ln (it.2 + 1) blk

theorem blocksNE_doErase (doc : List Block) (it : LineIt) (h : itValid doc it)
    (hne : blocksNE doc) : blocksNE (do_erase doc it) := by
  obtain ⟨hb, hl⟩ := h
  have hget : (modifyAt (removeAt it.2) it.1 doc).getD it.1 [(⟨[], LineEnding.none⟩ : Line)] =
      removeAt it.2 (doc.getD it.1 []) := by
    rw [getD_modifyAt_self _ _ it.1 doc hb]
    rw [getD_ofLt _ ([] : Block) it.1 doc hb]
  simp only [do_erase]
  rw [hget]
  split
  case isTrue =>
    rw [removeAt_modifyAt_self]
    intro blk hmem
    exact hne blk (mem_removeAt it.1 doc blk hmem)
  case isFalse hemp =>
    intro blk hmem
    rcases mem_modifyAt_cases (removeAt it.2) [] it.1 doc blk hmem with h | ⟨hlt, heq⟩
    · exact hne blk h
    · rw [heq]
      intro hcon
      apply hemp
      rw [hcon]
      rfl

theorem itInc_spec (doc : List Block) (it : LineIt) (hne : blocksNE doc)
    (hval : itValid doc it) (hlt : flatIdx doc it + 1 < (flatten doc).length) :
    itValid doc (itInc doc it) ∧ flatIdx doc (itInc doc it) = flatIdx doc it + 1 := by
  obtain ⟨hb, hl⟩ := hval
  have hlen := length_flatten_decomp doc it.1 hb
  unfold itInc
  split
  case isTrue hcross =>
    have hB : 0 < (flatten (doc.drop (it.1 + 1))).length := by
      by_contra hcon
      unfold flatIdx at hlt
      omega
    have hdrop : doc.drop (it.1 + 1) ≠ [] := by
      intro hcon
      rw [hcon] at hB
      simp [flatten] at hB
    have hblt : it.1 + 1 < doc.length := by
      by_contra hcon
      exact hdrop (List.drop_eq_nil_of_le (by omega))
    have hnn : doc.getD (it.1 + 1) [] ≠ [] := hne _ (getD_mem [] (it.1 + 1) doc hblt)
    refine ⟨⟨hblt, ?_⟩, ?_⟩
    · show 0 < blockLen doc (it.1 + 1)
      exact List.length_pos.2 hnn
    · show (flatten (doc.take (it.1 + 1))).length + 0 = flatIdx doc it + 1
      rw [length_flatten_take_succ doc it.1 hb]
      unfold flatIdx
      omega
  case isFalse hsame =>
    have hl2 : it.2 + 1 < blockLen doc it.1 := by
      omega
    refine ⟨⟨hb, hl2⟩, ?_⟩
    show (flatten (doc.take it.1)).length + (it.2 + 1) = flatIdx doc it + 1
    unfold flatIdx
    omega

theorem itDec_spec (doc : List Block) (it : LineIt) (hne : blocksNE doc)
    (hval : itValid doc it) (hpos : 0 < flatIdx doc it) :
    itValid doc (itDec doc it) ∧ flatIdx doc (itDec doc it) + 1 = flatIdx doc it := by
  obtain ⟨hb, hl⟩ := hval
  unfold itDec
  split
  case isTrue hz =>
    have hApos : 0 < (flatten (doc.take it.1)).length := by
      unfold flatIdx at hpos
      omega
    have hbpos : 0 < it.1 := by
      by_contra hcon
      have h0 : it.1 = 0 := by omega
      rw [h0] at hApos
      simp [flatten] at hApos
    have hb1 : it.1 - 1 < doc.length := by omega
    have hblk : doc.getD (it.1 - 1) [] ≠ [] := hne _ (getD_mem [] (it.1 - 1) doc hb1)
    have hbl : 0 < blockLen doc (it.1 - 1) := List.length_pos.2 hblk
    have htake : (flatten (doc.take it.1)).length =
        (flatten (doc.take (it.1 - 1))).length + blockLen doc (it.1 - 1) := by
      have hsucc : it.1 = (it.1 - 1) + 1 := by omega
      conv_lhs => rw [hsucc]
      exact length_flatten_take_succ doc (it.1 - 1) hb1
    refine ⟨⟨hb1, ?_⟩, ?_⟩
    · show blockLen doc (it.1 - 1) - 1 < blockLen doc (it.1 - 1)
      omega
    · show (flatten (doc.take (it.1 - 1))).length + (blockLen doc (it.1 - 1) - 1) + 1 =
        flatIdx doc it
      unfold flatIdx
      omega
  case isFalse hz =>
    refine ⟨⟨hb, ?_⟩, ?_⟩
    · show it.2 - 1 < blockLen doc it.1
      omega
    · show (flatten (doc.take it.1)).length + (it.2 - 1) + 1 = flatIdx doc it
      unfold flatIdx
      omega

theorem itInc_itDec (doc : List Block) (it : LineIt) (hne : blocksNE doc)
    (hval : itValid doc it) (hpos : 0 < flatIdx doc it) :
    itInc doc (itDec doc it) = it := by
  obtain ⟨hb, hl⟩ := hval
  unfold itDec
  split
  case isTrue hz =>
    have hA : flatten (doc.take it.1) ≠ [] := by
      intro hcon
      unfold flatIdx at hpos
      rw [hcon] at hpos
      simp [hz] at hpos
    have hbpos : 0 < it.1 := by
      by_contra hcon
      apply hA
      have : it.1 = 0 := by omega
      rw [this]
      rfl
    have hb1 : it.1 - 1 < doc.length := by omega
    have hblk : doc.getD (it.1 - 1) [] ≠ [] := hne _ (getD_mem [] (it.1 - 1) doc hb1)
    have hbl : 0 < blockLen doc (it.1 - 1) := List.length_pos.2 hblk
    unfold itInc
    simp only []
    rw [if_pos (by omega)]
    have : it.1 - 1 + 1 = it.1 := by omega
    rw [this, ← hz]
  case isFalse hz =>
    unfold itInc
    simp only []
    rw [if_neg (by omega)]
    have : it.2 - 1 + 1 = it.2 := by omega
    rw [this]

theorem itLine_flat (doc : List Block) (it : LineIt) (hval : itValid doc it) :
    itLine doc it = (flatten doc).getD (flatIdx doc it) ⟨[], LineEnding.none⟩ := by
  obtain ⟨hb, hl⟩ := hval
  have hdoc := flatten_take_decomp doc it.1 hb
  rw [hdoc]
  show itLine doc it = ((flatten (doc.take it.1) ++ doc.getD it.1 [] ++
    flatten (doc.drop (it.1 + 1)))).getD ((flatten (doc.take it.1)).length + it.2) _
  rw [List.append_assoc, getD_append_right',
    getD_append_left' _ _ _ _ hl]
  rfl

theorem before_end_spec (doc : List Block) (hd : doc ≠ []) (hne : blocksNE doc) :
    itValid doc (before_end doc) ∧
      flatIdx doc (before_end doc) + 1 = (flatten doc).length := by
  have hlen : 0 < doc.length := List.length_pos.2 hd
  have hb : doc.length - 1 < doc.length := by omega
  have hblk : doc.getD (doc.length - 1) [] ≠ [] := hne _ (getD_mem [] _ doc hb)
  have hbl : 0 < blockLen doc (doc.length - 1) := List.length_pos.2 hblk
  have hdec := length_flatten_decomp doc (doc.length - 1) hb
  have hdrop : doc.drop (doc.length - 1 + 1) = [] := by
    apply List.drop_eq_nil_of_le
    omega
  have h0 : (flatten (doc.drop (doc.length - 1 + 1))).length = 0 := by
    rw [hdrop]
    rfl
  constructor
  · refine ⟨hb, ?_⟩
    show blockLen doc (doc.length - 1) - 1 < blockLen doc (doc.length - 1)
    omega
  · show (flatten (doc.take (doc.length - 1))).length +
      (blockLen doc (doc.length - 1) - 1) + 1 = (flatten doc).length
    omega

theorem flatIdx_ne_last (doc : List Block) (it : LineIt) (hne : blocksNE doc)
    (hval : itValid doc it) (hd : doc ≠ []) (hneq : it ≠ before_end doc) :
    flatIdx doc it + 1 < (flatten doc).length := by
  obtain ⟨hb, hl⟩ := hval
  have hlen := length_flatten_decomp doc it.1 hb
  by_cases hcross : it.2 + 1 < blockLen doc it.1
  · unfold flatIdx
    omega
  · have hlast : it.2 + 1 = blockLen doc it.1 := by omega
    by_cases hblast : it.1 + 1 < doc.length
    · have hdropne : doc.drop (it.1 + 1) ≠ [] := by
        intro hcon
        have := List.drop_eq_nil_iff_le.1 hcon
        omega
      have hBne : flatten (doc.drop (it.1 + 1)) ≠ [] := by
        apply flatten_ne_nil _ hdropne
        intro blk hblk
        exact hne blk (List.drop_subset _ _ hblk)
      have hBpos : 0 < (flatten (doc.drop (it.1 + 1))).length := List.length_pos.2 hBne
      unfold flatIdx
      omega
    · exfalso
      apply hneq
      unfold before_end
      have h1 : it.1 = doc.length - 1 := by omega
      have h2 : it.2 = blockLen doc it.1 - 1 := by omega
      rw [← h1, ← h2]

theorem ctx_erase_fst (doc : List Block) (it : LineIt) :
    (ctx_erase doc it).1 = do_erase doc it := by
  unfold ctx_erase
  split <;> rfl

theorem length_flatten_take_modify (g : Block → Block) (hg : ∀ x, (g x).length = x.length) :
    ∀ (doc : List Block) (j b : Nat),
      (flatten ((modifyAt g j doc).take b)).length = (flatten (doc.take b)).length := by
  intro doc
  induction doc with
  | nil => intro j b; rw [modifyAt_nil]
  | cons blk rest ih =>
    intro j b
    cases j with
    | zero =>
      cases b with
      | zero => rfl
      | succ m => simp [modifyAt, flatten, List.length_append, hg]
    | succ n =>
      cases b with
      | zero => rfl
      | succ m =>
        simp only [modifyAt, List.take_succ_cons, flatten, List.length_append]
        rw [ih n m]

theorem flatIdx_docModifyLine (doc : List Block) (kt : LineIt) (f : Line → Line)
    (jt : LineIt) : flatIdx (docModifyLine doc kt f) jt = flatIdx doc jt := by
  unfold flatIdx docModifyLine
  rw [length_flatten_take_modify _ (fun x => length_modifyAt f kt.2 x)]

theorem blockLen_docModifyLine (doc : List Block) (kt : LineIt) (f : Line → Line)
    (b : Nat) : blockLen (docModifyLine doc kt f) b = blockLen doc b := by
  unfold blockLen docModifyLine
  by_cases h : kt.1 = b
  · subst h
    by_cases hb : kt.1 < doc.length
    · rw [getD_modifyAt_self _ _ _ _ hb]
      exact length_modifyAt f kt.2 _
    · rw [modifyAt_ge _ _ _ (by omega)]
  · rw [getD_modifyAt_ne _ _ _ _ _ h]

theorem length_docModifyLine (doc : List Block) (kt : LineIt) (f : Line → Line) :
    (docModifyLine doc kt f).length = doc.length := length_modifyAt _ _ _

theorem itValid_docModifyLine (doc : List Block) (kt : LineIt) (f : Line → Line)
    (jt : LineIt) (h : itValid doc jt) : itValid (docModifyLine doc kt f) jt := by
  obtain ⟨h1, h2⟩ := h
  exact ⟨by rw [length_docModifyLine]; exact h1, by rw [blockLen_docModifyLine]; exact h2⟩

theorem itInc_docModifyLine (doc : List Block) (kt : LineIt) (f : Line → Line)
    (jt : LineIt) : itInc (docModifyLine doc kt f) jt = itInc doc jt := by
  unfold itInc
  rw [blockLen_docModifyLine]

/-! ### The sentinel-line invariant at the level of ending tags -/

/-- The sequence of ending tags of a line sequence. -/
def endings (ls : List Line) : List LineEnding := ls.map Line.ending_type

/-- Well-formed tag sequence: non-empty, every tag but the last is a real
terminator, the last is the `none` sentinel. -/
def okTagsB : List LineEnding → Bool
  | [] => false
  | [e] => e == LineEnding.none
  | e :: t => (e != LineEnding.none) && okTagsB t

/-- No tag in the list is the `none` sentinel. -/
def allNotNone (T : List LineEnding) : Prop := ∀ e ∈ T, e ≠ LineEnding.none

theorem okTags_cons (e : LineEnding) (t : List LineEnding) (h : t ≠ []) :
    okTagsB (e :: t) = ((e != LineEnding.none) && okTagsB t) := by
  cases t with
  | nil => exact absurd rfl h
  | cons f u => rfl

theorem okTags_append_iff (A B : List LineEnding) (hB : B ≠ []) :
    okTagsB (A ++ B) = true ↔ allNotNone A ∧ okTagsB B = true := by
  induction A with
  | nil =>
    simp only [List.nil_append]
    constructor
    · intro h
      exact ⟨fun e he => absurd he (List.not_mem_nil e), h⟩
    · intro h
      exact h.2
  | cons a A' ih =>
    have hne : A' ++ B ≠ [] := by
      intro hcon
      exact hB (List.append_eq_nil.1 hcon).2
    rw [List.cons_append, okTags_cons a (A' ++ B) hne]
    constructor
    · intro h
      rw [Bool.and_eq_true] at h
      obtain ⟨ha, ht⟩ := h
      obtain ⟨hA', hBok⟩ := ih.1 ht
      refine ⟨?_, hBok⟩
      intro e he
      rcases List.mem_cons.1 he with he | he
      · rw [he]
        simpa using ha
      · exact hA' e he
    · intro ⟨hall, hBok⟩
      rw [Bool.and_eq_true]
      constructor
      · simpa using hall a (List.mem_cons_self a A')
      · exact ih.2 ⟨fun e he => hall e (List.mem_cons_of_mem a he), hBok⟩

theorem okTags_singleton_none : okTagsB [LineEnding.none] = true := rfl

theorem okTags_append_none (T : List LineEnding) (h : allNotNone T) :
    okTagsB (T ++ [LineEnding.none]) = true := by
  rw [okTags_append_iff T [LineEnding.none] (by simp)]
  exact ⟨h, okTags_singleton_none⟩

theorem set_middle {α : Type} : ∀ (A : List α) (d : α) (B : List α) (x : α),
    (A ++ d :: B).set A.length x = A ++ x :: B := by
  intro A
  induction A with
  | nil => intro d B x; rfl
  | cons a A' ih => intro d B x; simp only [List.cons_append, List.length_cons,
      List.set_cons_succ, List.cons.injEq, true_and]
                    exact ih d B x

theorem getD_middle {α : Type} (A : List α) (d : α) (B : List α) (dflt : α) :
    (A ++ d :: B).getD A.length dflt = d := by
  have := getD_append_right' dflt A (d :: B) 0
  simpa using this

theorem insertAt_one_cons {α : Type} (y d : α) (B : List α) :
    insertAt 1 y (d :: B) = d :: y :: B := rfl

theorem removeAt_one_cons_cons {α : Type} (d e : α) (B : List α) :
    removeAt 1 (d :: e :: B) = d :: B := rfl

/-- Splitting a line (the newline command): the line at `j` has its tag set
to `x` and a line carrying the old tag is inserted right after it;
well-formedness of the tag sequence is preserved whenever `x` is a real
terminator. -/
theorem okTags_split (T : List LineEnding) (j : Nat) (x : LineEnding)
    (hok : okTagsB T = true) (hj : j < T.length) (hx : x ≠ LineEnding.none) :
    okTagsB ((insertAt (j + 1) (T.getD j LineEnding.none) T).set j x) = true := by
  obtain ⟨A, d, B, hT, hA⟩ : ∃ A d B, T = A ++ d :: B ∧ A.length = j :=
    ⟨T.take j, T.getD j LineEnding.none, T.drop (j + 1),
      take_decomp LineEnding.none j T hj, by rw [List.length_take]; omega⟩
  subst hA
  subst hT
  rw [getD_middle, insertAt_append_right, insertAt_one_cons, set_middle]
  rw [okTags_append_iff _ _ (by simp)] at hok
  rw [okTags_append_iff _ _ (by simp)]
  refine ⟨hok.1, ?_⟩
  rw [okTags_cons x (d :: B) (by simp), Bool.and_eq_true]
  exact ⟨by simpa using hx, hok.2⟩

/-- Merging two adjacent lines (backspace at column 0 / forward delete at
line end / the final step of a multi-line span delete): line `j` adopts the
tag of line `j+1` and line `j+1` is erased. -/
theorem okTags_merge (T : List LineEnding) (j : Nat)
    (hok : okTagsB T = true) (hj : j + 1 < T.length) :
    okTagsB (removeAt (j + 1) (T.set j (T.getD (j + 1) LineEnding.none))) = true := by
  obtain ⟨A, d, B1, hT, hA⟩ : ∃ A d B1, T = A ++ d :: B1 ∧ A.length = j :=
    ⟨T.take j, T.getD j LineEnding.none, T.drop (j + 1),
      take_decomp LineEnding.none j T (by omega), by rw [List.length_take]; omega⟩
  subst hA
  subst hT
  cases B1 with
  | nil => simp at hj
  | cons e B =>
    have hgd : (A ++ d :: e :: B).getD (A.length + 1) LineEnding.none = e := by
      rw [getD_append_right']
      rfl
    rw [hgd, set_middle, removeAt_append_right, removeAt_one_cons_cons]
    rw [okTags_append_iff _ _ (by simp)] at hok
    rw [okTags_append_iff _ _ (by simp)]
    refine ⟨hok.1, ?_⟩
    have := hok.2
    rw [okTags_cons d (e :: B) (by simp), Bool.and_eq_true] at this
    exact this.2

/-- Removing a line that is not the last one (the middle-line erasures of a
multi-line span delete). -/
theorem okTags_removeMid (T : List LineEnding) (j : Nat)
    (hok : okTagsB T = true) (hj : j + 1 < T.length) :
    okTagsB (removeAt j T) = true := by
  obtain ⟨A, d, B1, hT, hA⟩ : ∃ A d B1, T = A ++ d :: B1 ∧ A.length = j :=
    ⟨T.take j, T.getD j LineEnding.none, T.drop (j + 1),
      take_decomp LineEnding.none j T (by omega), by rw [List.length_take]; omega⟩
  subst hA
  subst hT
  cases B1 with
  | nil => simp at hj
  | cons e B =>
    have hra : removeAt A.length (A ++ d :: e :: B) = A ++ e :: B := by
      have := removeAt_append_right A (d :: e :: B) 0
      simpa using this
    rw [hra]
    rw [okTags_append_iff _ _ (by simp)] at hok
    rw [okTags_append_iff _ _ (by simp)]
    refine ⟨hok.1, ?_⟩
    have := hok.2
    rw [okTags_cons d (e :: B) (by simp), Bool.and_eq_true] at this
    exact this.2

theorem okTags_count : ∀ (T : List LineEnding), okTagsB T = true →
    T.countP (fun e => e == LineEnding.none) = 1 := by
  intro T
  induction T with
  | nil => intro h; simp [okTagsB] at h
  | cons e t ih =>
    intro h
    cases t with
    | nil =>
      simp [okTagsB] at h
      simp [List.countP_cons, h]
    | cons f u =>
      rw [okTags_cons e (f :: u) (by simp), Bool.and_eq_true] at h
      rw [List.countP_cons, ih h.2]
      have he := h.1
      simp at he
      simp [he]

theorem okTags_getLast : ∀ (T : List LineEnding), okTagsB T = true →
    T.getLast? = some LineEnding.none := by
  intro T
  induction T with
  | nil => intro h; simp [okTagsB] at h
  | cons e t ih =>
    intro h
    cases t with
    | nil =>
      simp [okTagsB] at h
      simp [h]
    | cons f u =>
      rw [okTags_cons e (f :: u) (by simp), Bool.and_eq_true] at h
      rw [List.getLast?_cons_cons]
      exact ih h.2

theorem length_endings (ls : List Line) : (endings ls).length = ls.length := by
  simp [endings]

theorem endings_insertAt (x : Line) : ∀ (j : Nat) (ls : List Line),
    endings (insertAt j x ls) = insertAt j x.ending_type (endings ls) := by
  intro j
  induction j with
  | zero => intro ls; cases ls <;> rfl
  | succ n ih =>
    intro ls
    cases ls with
    | nil => rfl
    | cons y ys =>
      show Line.ending_type y :: endings (insertAt n x ys) = _
      rw [ih ys]
      rfl

theorem endings_removeAt : ∀ (j : Nat) (ls : List Line),
    endings (removeAt j ls) = removeAt j (endings ls) := by
  intro j
  induction j with
  | zero => intro ls; cases ls <;> rfl
  | succ n ih =>
    intro ls
    cases ls with
    | nil => rfl
    | cons y ys =>
      show Line.ending_type y :: endings (removeAt n ys) = _
      rw [ih ys]
      rfl

theorem endings_modify_preserve (f : Line → Line)
    (hf : ∀ x, (f x).ending_type = x.ending_type) : ∀ (j : Nat) (ls : List Line),
    endings (modifyAt f j ls) = endings ls := by
  intro j
  induction j with
  | zero =>
    intro ls
    cases ls with
    | nil => rfl
    | cons y ys =>
      show (f y).ending_type :: endings ys = y.ending_type :: endings ys
      rw [hf y]
  | succ n ih =>
    intro ls
    cases ls with
    | nil => rfl
    | cons y ys =>
      show Line.ending_type y :: endings (modifyAt f n ys) = _
      rw [ih ys]
      rfl

theorem endings_modify_const (f : Line → Line) (e0 : LineEnding)
    (hf : ∀ x, (f x).ending_type = e0) : ∀ (j : Nat) (ls : List Line),
    endings (modifyAt f j ls) = (endings ls).set j e0 := by
  intro j
  induction j with
  | zero =>
    intro ls
    cases ls with
    | nil => rfl
    | cons y ys =>
      show (f y).ending_type :: endings ys = e0 :: endings ys
      rw [hf y]
  | succ n ih =>
    intro ls
    cases ls with
    | nil => rfl
    | cons y ys =>
      show Line.ending_type y :: endings (modifyAt f n ys) = _
      rw [ih ys]
      rfl

theorem endings_getD : ∀ (j : Nat) (ls : List Line), j < ls.length →
    (endings ls).getD j LineEnding.none =
      (ls.getD j ⟨[], LineEnding.none⟩).ending_type := by
  intro j
  induction j with
  | zero =>
    intro ls h
    cases ls with
    | nil => simp at h
    | cons y ys => rfl
  | succ n ih =>
    intro ls h
    cases ls with
    | nil => simp at h
    | cons y ys =>
      show (endings ys).getD n LineEnding.none = _
      exact ih ys (by simpa using h)

/-- The document invariant of claim C8, in its inductive form: all blocks
non-empty, and the ending tags of the line sequence are a run of real
terminators closed by exactly one `none` sentinel on the final line.
Because the blocks are non-empty, that final line is the last line of the
last block. -/
def docOK (doc : List Block) : Prop :=
  blocksNE doc ∧ okTagsB (endings (flatten doc)) = true

instance (doc : List Block) : Decidable (blocksNE doc) := by
  unfold blocksNE; infer_instance

instance (doc : List Block) : Decidable (docOK doc) := by
  unfold docOK; infer_instance

/-- The last line of the last block, the position the `none` sentinel must
occupy. -/
def lastLineOfLastBlock (doc : List Block) : Option Line :=
  (doc.getLast?.getD []).getLast?

theorem allNotNone_append (T1 T2 : List LineEnding) (h1 : allNotNone T1)
    (h2 : allNotNone T2) : allNotNone (T1 ++ T2) := by
  intro e he
  rcases List.mem_append.1 he with h | h
  · exact h1 e h
  · exact h2 e h

theorem endings_append (l1 l2 : List Line) :
    endings (l1 ++ l2) = endings l1 ++ endings l2 := by
  simp [endings]

theorem init_append_line_facts (bs : List Block) (ln : Line) (h : bs ≠ []) :
    flatten (init_append_line bs ln) = flatten bs ++ [ln] ∧
    init_append_line bs ln ≠ [] ∧
    ((∀ blk ∈ bs.dropLast, blk ≠ []) → blocksNE (init_append_line bs ln)) := by
  have hlast := List.getLast?_eq_getLast bs h
  have hsplit := List.dropLast_append_getLast h
  unfold init_append_line
  rw [hlast]
  simp only [Option.getD_some]
  split
  next hfull =>
    refine ⟨?_, by simp, ?_⟩
    · rw [flatten_append]
      simp [flatten]
    · intro hdl blk hmem
      rcases List.mem_append.1 hmem with hm | hm
      · conv at hm => rw [← hsplit]
        rcases List.mem_append.1 hm with hm | hm
        · exact hdl blk hm
        · have hb : blk = bs.getLast h := by simpa using hm
          rw [hb]
          intro hcon
          rw [hcon] at hfull
          simp [advised_lines] at hfull
      · have hb : blk = [ln] := by simpa using hm
        rw [hb]
        simp
  next =>
    refine ⟨?_, by simp, ?_⟩
    · conv_lhs => rw [flatten_append]
      conv_rhs => rw [← hsplit, flatten_append]
      simp [flatten, List.append_assoc]
    · intro hdl blk hmem
      rcases List.mem_append.1 hmem with hm | hm
      · exact hdl blk hm
      · have hb : blk = bs.getLast h ++ [ln] := by simpa using hm
        rw [hb]
        simp

theorem load_loop_ok : ∀ (input : List Char) (last : Char) (acc : List Char)
    (bs : List Block), bs ≠ [] → (∀ blk ∈ bs.dropLast, blk ≠ []) →
    allNotNone (endings (flatten bs)) →
    docOK (load_loop last acc bs input) := by
  intro input
  induction input with
  | nil =>
    intro last acc bs h1 h2 h3
    simp only [load_loop]
    split
    · obtain ⟨hf1, hn1, hb1⟩ := init_append_line_facts bs ⟨acc, LineEnding.r⟩ h1
      obtain ⟨hf2, hn2, hb2⟩ :=
        init_append_line_facts (init_append_line bs ⟨acc, LineEnding.r⟩)
          ⟨[], LineEnding.none⟩ hn1
      constructor
      · apply hb2
        intro blk hm
        exact hb1 h2 blk (List.dropLast_sublist _ |>.mem hm)
      · rw [hf2, hf1, endings_append]
        apply okTags_append_none
        rw [endings_append]
        apply allNotNone_append _ _ h3
        intro e he
        have : e = LineEnding.r := by simpa [endings] using he
        rw [this]
        intro hcon
        cases hcon
    · obtain ⟨hf1, hn1, hb1⟩ := init_append_line_facts bs ⟨acc, LineEnding.none⟩ h1
      constructor
      · exact hb1 h2
      · rw [hf1, endings_append]
        exact okTags_append_none _ h3
  | cons i rest ih =>
    intro last acc bs h1 h2 h3
    simp only [load_loop]
    split
    · obtain ⟨hf1, hn1, hb1⟩ :=
        init_append_line_facts bs ⟨acc, if i = '\n' then LineEnding.rn else LineEnding.r⟩ h1
      apply ih
      · exact hn1
      · intro blk hm
        exact hb1 h2 blk (List.dropLast_sublist _ |>.mem hm)
      · rw [hf1, endings_append]
        apply allNotNone_append _ _ h3
        intro e he
        have he' : e = (if i = '\n' then LineEnding.rn else LineEnding.r) := by
          simpa [endings] using he
        rw [he']
        split <;> intro hcon <;> cases hcon
    · split
      · obtain ⟨hf1, hn1, hb1⟩ := init_append_line_facts bs ⟨acc, LineEnding.n⟩ h1
        apply ih
        · exact hn1
        · intro blk hm
          exact hb1 h2 blk (List.dropLast_sublist _ |>.mem hm)
        · rw [hf1, endings_append]
          apply allNotNone_append _ _ h3
          intro e he
          have he' : e = LineEnding.n := by simpa [endings] using he
          rw [he']
          intro hcon
          cases hcon
      · split
        · exact ih i acc bs h1 h2 h3
        · exact ih i (acc ++ [i]) bs h1 h2 h3

theorem load_from_file_ok (input : List Char) : docOK (load_from_file input) := by
  apply load_loop_ok
  · simp
  · intro blk hm
    simp at hm
  · intro e he
    simp [flatten, endings] at he

/-- Erasing a line strictly after the position `lit` references leaves
`lit` valid and at the same flat index. -/
theorem do_erase_preserves_earlier (doc : List Block) (jt lit : LineIt)
    (hvj : itValid doc jt) (hvl : itValid doc lit)
    (horder : lit.1 < jt.1 ∨ (lit.1 = jt.1 ∧ lit.2 < jt.2)) :
    itValid (do_erase doc jt) lit ∧ flatIdx (do_erase doc jt) lit = flatIdx doc lit := by
  obtain ⟨hjb, hjl⟩ := hvj
  obtain ⟨hlb, hll⟩ := hvl
  have hget : (modifyAt (removeAt jt.2) jt.1 doc).getD jt.1 [(⟨[], LineEnding.none⟩ : Line)] =
      removeAt jt.2 (doc.getD jt.1 []) := by
    rw [getD_modifyAt_self _ _ jt.1 doc hjb]
    rw [getD_ofLt _ ([] : Block) jt.1 doc hjb]
  have hlen' : (removeAt jt.2 (doc.getD jt.1 [])).length = blockLen doc jt.1 - 1 :=
    length_removeAt jt.2 _ hjl
  have hle1 : lit.1 ≤ jt.1 := by rcases horder with h | ⟨h, _⟩ <;> omega
  have htake : (modifyAt (removeAt jt.2) jt.1 doc).take lit.1 = doc.take lit.1 :=
    take_modifyAt_le _ lit.1 jt.1 doc hle1
  have hval' : itValid (modifyAt (removeAt jt.2) jt.1 doc) lit := by
    refine ⟨by rw [length_modifyAt]; exact hlb, ?_⟩
    rcases horder with ho | ⟨ho1, ho2⟩
    · unfold blockLen
      rw [getD_modifyAt_ne _ _ _ _ _ (by omega)]
      exact hll
    · unfold blockLen
      rw [ho1, getD_modifyAt_self _ _ jt.1 doc hjb]
      rw [length_removeAt jt.2 _ hjl]
      unfold blockLen at hjl
      omega
  simp only [do_erase]
  rw [hget]
  split
  case isTrue hemp =>
    rw [List.isEmpty_iff] at hemp
    have hbl1 : blockLen doc jt.1 = 1 := by
      have h2 := congrArg List.length hemp
      rw [hlen'] at h2
      simp at h2
      omega
    have hjz : jt.2 = 0 := by omega
    have hlt1 : lit.1 < jt.1 := by
      rcases horder with h | ⟨_, h2⟩
      · exact h
      · omega
    rw [removeAt_modifyAt_self]
    constructor
    · refine ⟨?_, ?_⟩
      · rw [length_removeAt jt.1 doc hjb]
        omega
      · unfold blockLen
        rw [getD_removeAt_lt _ _ _ _ hlt1]
        exact hll
    · unfold flatIdx
      rw [take_removeAt_le lit.1 jt.1 doc (by omega)]
  case isFalse =>
    constructor
    · exact hval'
    · unfold flatIdx
      rw [htake]

/-- `erase_after` at a valid, not-last iterator: the flat line sequence
loses exactly the following line; the iterator itself stays valid at the
same flat index, and no block goes empty. -/
theorem erase_after_spec (doc : List Block) (lit : LineIt) (hne : blocksNE doc)
    (hval : itValid doc lit) (hlt : flatIdx doc lit + 1 < (flatten doc).length) :
    flatten (erase_after doc lit) = removeAt (flatIdx doc lit + 1) (flatten doc) ∧
    blocksNE (erase_after doc lit) ∧
    itValid (erase_after doc lit) lit ∧
    flatIdx (erase_after doc lit) lit = flatIdx doc lit := by
  obtain ⟨hval2, hidx2⟩ := itInc_spec doc lit hne hval hlt
  have horder : lit.1 < (itInc doc lit).1 ∨
      (lit.1 = (itInc doc lit).1 ∧ lit.2 < (itInc doc lit).2) := by
    unfold itInc
    split
    · left
      show lit.1 < lit.1 + 1
      omega
    · right
      exact ⟨rfl, by show lit.2 < lit.2 + 1; omega⟩
  obtain ⟨hv', hi'⟩ := do_erase_preserves_earlier doc (itInc doc lit) lit hval2 hval horder
  refine ⟨?_, blocksNE_doErase doc (itInc doc lit) hval2 hne, hv', hi'⟩
  unfold erase_after
  rw [flat_doErase doc (itInc doc lit) hval2, hidx2]

/-- The middle-line erasure loop of `_delete_selection`: `k` successive
`erase_after(_lit)` calls remove the `k` lines after `lit`, preserving the
document invariant as long as none of them is the sentinel line. -/
theorem span_loop_ok : ∀ (k : Nat) (doc : List Block) (lit : LineIt),
    docOK doc → itValid doc lit →
    flatIdx doc lit + k + 1 < (flatten doc).length →
    docOK (span_loop lit k doc) ∧ itValid (span_loop lit k doc) lit ∧
    flatIdx (span_loop lit k doc) lit = flatIdx doc lit ∧
    (flatten (span_loop lit k doc)).length + k = (flatten doc).length := by
  intro k
  induction k with
  | zero =>
    intro doc lit h1 h2 _
    exact ⟨h1, h2, rfl, rfl⟩
  | succ n ih =>
    intro doc lit hOK hval hbound
    obtain ⟨hne, hok⟩ := hOK
    have hlt : flatIdx doc lit + 1 < (flatten doc).length := by omega
    obtain ⟨hflat, hne', hval', hidx'⟩ := erase_after_spec doc lit hne hval hlt
    have hlen' : (flatten (erase_after doc lit)).length = (flatten doc).length - 1 := by
      rw [hflat]
      exact length_removeAt _ _ (by omega)
    have hok' : okTagsB (endings (flatten (erase_after doc lit))) = true := by
      rw [hflat, endings_removeAt]
      apply okTags_removeMid _ _ hok
      rw [length_endings]
      omega
    have hrec := ih (erase_after doc lit) lit ⟨hne', hok'⟩ hval' (by omega)
    refine ⟨hrec.1, hrec.2.1, ?_, ?_⟩
    · show flatIdx (span_loop lit n (erase_after doc lit)) lit = flatIdx doc lit
      rw [hrec.2.2.1, hidx']
    · show (flatten (span_loop lit n (erase_after doc lit))).length + (n + 1) =
        (flatten doc).length
      have := hrec.2.2.2
      omega

theorem delete_selection_lit (s : TxState) : (delete_selection s).lit = s.lit := by
  unfold delete_selection
  split <;> rfl

theorem delete_selection_le (s : TxState) : (delete_selection s).le = s.le := by
  unfold delete_selection
  split <;> rfl

theorem delete_selection_smin (s : TxState) : (delete_selection s).smin = s.smin := by
  unfold delete_selection
  split <;> rfl

theorem delete_selection_smax (s : TxState) : (delete_selection s).smax = s.smin := by
  unfold delete_selection
  split <;> rfl

theorem delete_selection_insertMode (s : TxState) :
    (delete_selection s).insertMode = s.insertMode := by
  unfold delete_selection
  split <;> rfl

/-- `_delete_selection` preserves the document invariant and leaves `_lit`
valid at the flat index `smin.line`. -/
theorem delete_selection_ok (s : TxState) (hne : blocksNE s.doc)
    (hok : okTagsB (endings (flatten s.doc)) = true)
    (hval : itValid s.doc s.lit) (hidx : flatIdx s.doc s.lit = s.smin.line)
    (hle : posLe s.smin s.smax) (hmax : s.smax.line < num_lines s.doc) :
    blocksNE (delete_selection s).doc ∧
    okTagsB (endings (flatten (delete_selection s).doc)) = true ∧
    itValid (delete_selection s).doc s.lit ∧
    flatIdx (delete_selection s).doc s.lit = s.smin.line := by
  by_cases hsame : s.smin.line = s.smax.line
  · have hdoc_eq : (delete_selection s).doc = docModifyLine s.doc s.lit (fun l =>
        ⟨l.content.take s.smin.column ++ l.content.drop s.smax.column, l.ending_type⟩) := by
      unfold delete_selection
      rw [if_pos hsame]
    rw [hdoc_eq]
    refine ⟨blocksNE_docModifyLine _ _ _ hne, ?_,
      itValid_docModifyLine _ _ _ _ hval, ?_⟩
    · rw [flat_modifyLine _ _ _ hval,
        endings_modify_preserve (fun l : Line =>
          (⟨l.content.take s.smin.column ++ l.content.drop s.smax.column,
            l.ending_type⟩ : Line)) (fun x => rfl)]
      exact hok
    · rw [flatIdx_docModifyLine]
      exact hidx
  · have hlines : s.smin.line < s.smax.line := by
      rw [posLe_iff] at hle
      rcases hle with h | ⟨h1, h2⟩
      · exact h
      · exact absurd h1 hsame
    have hnumlen := num_lines_eq s.doc
    have hkbound : flatIdx s.doc s.lit + (s.smax.line - s.smin.line - 1) + 1 <
        (flatten s.doc).length := by
      rw [hidx]
      omega
    obtain ⟨⟨hne1, hok1⟩, hval1, hidx1, hlen1⟩ :=
      span_loop_ok (s.smax.line - s.smin.line - 1) s.doc s.lit ⟨hne, hok⟩ hval hkbound
    set doc1 := span_loop s.lit (s.smax.line - s.smin.line - 1) s.doc with hdoc1
    have hidx1' : flatIdx doc1 s.lit = s.smin.line := by rw [hidx1, hidx]
    have hnlbound : flatIdx doc1 s.lit + 1 < (flatten doc1).length := by
      rw [hidx1']
      omega
    obtain ⟨hvalN, hidxN⟩ := itInc_spec doc1 s.lit hne1 hval1 hnlbound
    set nlIt := itInc doc1 s.lit with hnlIt
    set nl := itLine doc1 nlIt with hnl
    have hidxN' : flatIdx doc1 nlIt = s.smin.line + 1 := by rw [hidxN, hidx1']
    have hnltag : nl.ending_type =
        (endings (flatten doc1)).getD (s.smin.line + 1) LineEnding.none := by
      rw [hnl, itLine_flat doc1 nlIt hvalN, hidxN']
      rw [endings_getD _ _ (by rw [← hidxN']; exact flatIdx_lt doc1 nlIt hvalN)]
    set f2 := fun l : Line =>
      (⟨l.content.take s.smin.column ++ nl.content.drop s.smax.column, nl.ending_type⟩ : Line)
      with hf2
    set doc2 := docModifyLine doc1 s.lit f2 with hdoc2
    have hval2 : itValid doc2 s.lit := itValid_docModifyLine _ _ _ _ hval1
    have hidx2 : flatIdx doc2 s.lit = s.smin.line := by
      rw [hdoc2, flatIdx_docModifyLine, hidx1']
    have hne2 : blocksNE doc2 := blocksNE_docModifyLine _ _ _ hne1
    have hflat2 : flatten doc2 = modifyAt f2 s.smin.line (flatten doc1) := by
      rw [hdoc2, flat_modifyLine _ _ _ hval1, hidx1']
    have hend2 : endings (flatten doc2) =
        (endings (flatten doc1)).set s.smin.line nl.ending_type := by
      rw [hflat2, endings_modify_const f2 nl.ending_type (fun x => rfl)]
    have hlen2 : (flatten doc2).length = (flatten doc1).length := by
      rw [hflat2]
      exact length_modifyAt _ _ _
    have herase_bound : flatIdx doc2 s.lit + 1 < (flatten doc2).length := by
      rw [hidx2, hlen2]
      rw [hidx1'] at hnlbound
      exact hnlbound
    obtain ⟨hflat3, hne3, hval3, hidx3⟩ := erase_after_spec doc2 s.lit hne2 hval2 herase_bound
    have hok3 : okTagsB (endings (flatten (erase_after doc2 s.lit))) = true := by
      rw [hflat3, hidx2, endings_removeAt, hend2, hnltag]
      apply okTags_merge _ _ hok1
      rw [length_endings]
      rw [hidx1'] at hnlbound
      exact hnlbound
    have hdoc_eq : (delete_selection s).doc = erase_after doc2 s.lit := by
      unfold delete_selection
      rw [if_neg hsame]
    rw [hdoc_eq]
    refine ⟨hne3, hok3, hval3, ?_⟩
    rw [hidx3, hidx2]

/-! ### Preservation of the document invariant by the three edit commands -/

theorem delete_char_after_ok (s : TxState) (hne : blocksNE s.doc)
    (hok : okTagsB (endings (flatten s.doc)) = true)
    (hval : itValid s.doc s.lit) (hidx : flatIdx s.doc s.lit = s.smin.line)
    (hle : posLe s.smin s.smax) (hmax : s.smax.line < num_lines s.doc) :
    docOK (delete_char_after s).doc := by
  simp only [delete_char_after]
  split
  next hsel =>
    obtain ⟨h1, h2, _, _⟩ :=
      delete_selection_ok { s with modifiedFlag := true } hne hok hval hidx hle hmax
    exact ⟨h1, h2⟩
  next hsel =>
    split
    next hcol =>
      refine ⟨blocksNE_docModifyLine _ _ _ hne, ?_⟩
      rw [flat_modifyLine s.doc s.lit (fun l =>
          (⟨removeAt s.smin.column l.content, l.ending_type⟩ : Line)) hval,
        endings_modify_preserve (fun l : Line =>
          (⟨removeAt s.smin.column l.content, l.ending_type⟩ : Line)) (fun x => rfl)]
      exact hok
    next hcol =>
      split
      next hnext =>
        have hnext' : s.smin.line + 1 < (flatten s.doc).length := by
          have h0 : s.smin.line + 1 < num_lines s.doc := hnext
          rw [num_lines_eq] at h0
          exact h0
        have hlt : flatIdx s.doc s.lit + 1 < (flatten s.doc).length := by
          rw [hidx]
          exact hnext'
        obtain ⟨hvN, hiN⟩ := itInc_spec s.doc s.lit hne hval hlt
        have hnexttag : (itLine s.doc (itInc s.doc s.lit)).ending_type =
            (endings (flatten s.doc)).getD (s.smin.line + 1) LineEnding.none := by
          rw [itLine_flat s.doc (itInc s.doc s.lit) hvN, hiN, hidx,
            endings_getD _ _ hnext']
        have hv1N : itValid
            (docModifyLine s.doc s.lit (fun l =>
              (⟨l.content ++ (itLine s.doc (itInc s.doc s.lit)).content,
                (itLine s.doc (itInc s.doc s.lit)).ending_type⟩ : Line)))
            (itInc s.doc s.lit) := itValid_docModifyLine _ _ _ _ hvN
        have hne1 : blocksNE
            (docModifyLine s.doc s.lit (fun l =>
              (⟨l.content ++ (itLine s.doc (itInc s.doc s.lit)).content,
                (itLine s.doc (itInc s.doc s.lit)).ending_type⟩ : Line))) :=
          blocksNE_docModifyLine _ _ _ hne
        have hok2 : okTagsB (endings (flatten (do_erase
            (docModifyLine s.doc s.lit (fun l =>
              (⟨l.content ++ (itLine s.doc (itInc s.doc s.lit)).content,
                (itLine s.doc (itInc s.doc s.lit)).ending_type⟩ : Line)))
            (itInc s.doc s.lit)))) = true := by
          rw [flat_doErase _ _ hv1N, flatIdx_docModifyLine, hiN, hidx,
            flat_modifyLine _ _ _ hval, hidx,
            endings_removeAt,
            endings_modify_const (fun l : Line =>
              (⟨l.content ++ (itLine s.doc (itInc s.doc s.lit)).content,
                (itLine s.doc (itInc s.doc s.lit)).ending_type⟩ : Line))
              (itLine s.doc (itInc s.doc s.lit)).ending_type (fun x => rfl),
            hnexttag]
          apply okTags_merge _ _ hok
          rw [length_endings]
          exact hnext'
        have hne2 : blocksNE (do_erase
            (docModifyLine s.doc s.lit (fun l =>
              (⟨l.content ++ (itLine s.doc (itInc s.doc s.lit)).content,
                (itLine s.doc (itInc s.doc s.lit)).ending_type⟩ : Line)))
            (itInc s.doc s.lit)) := blocksNE_doErase _ _ hv1N hne1
        rw [ctx_erase_fst]
        exact ⟨hne2, hok2⟩
      next hnext => exact ⟨hne, hok⟩

theorem delete_char_before_ok (s : TxState) (hne : blocksNE s.doc)
    (hok : okTagsB (endings (flatten s.doc)) = true)
    (hval : itValid s.doc s.lit) (hidx : flatIdx s.doc s.lit = s.smin.line)
    (hle : posLe s.smin s.smax) (hmax : s.smax.line < num_lines s.doc) :
    docOK (delete_char_before s).doc := by
  simp only [delete_char_before]
  split
  next hsel =>
    obtain ⟨h1, h2, _, _⟩ :=
      delete_selection_ok { s with modifiedFlag := true } hne hok hval hidx hle hmax
    exact ⟨h1, h2⟩
  next hsel =>
    split
    next hz =>
      split
      next hcol =>
        have hcol' : s.smin.column = 0 := hcol
        have hz' : s.smin ≠ (⟨0, 0⟩ : CaretPosition) := hz
        have hlpos : 0 < s.smin.line := by
          rcases Nat.eq_zero_or_pos s.smin.line with h0 | h
          · exfalso
            apply hz'
            calc s.smin = ⟨s.smin.line, s.smin.column⟩ := rfl
              _ = ⟨0, 0⟩ := by rw [h0, hcol']
          · exact h
        have hsl : s.smin.line < (flatten s.doc).length := by
          rw [← hidx]
          exact flatIdx_lt s.doc s.lit hval
        have hpos : 0 < flatIdx s.doc s.lit := by
          rw [hidx]
          exact hlpos
        obtain ⟨hvP, hiP⟩ := itDec_spec s.doc s.lit hne hval hpos
        have hiP' : flatIdx s.doc (itDec s.doc s.lit) = s.smin.line - 1 := by
          rw [hidx] at hiP
          omega
        have hlittag : (itLine s.doc s.lit).ending_type =
            (endings (flatten s.doc)).getD s.smin.line LineEnding.none := by
          rw [itLine_flat s.doc s.lit hval, hidx, endings_getD _ _ hsl]
        have hv1P : itValid
            (docModifyLine s.doc (itDec s.doc s.lit) (fun l =>
              (⟨l.content ++ (itLine s.doc s.lit).content,
                (itLine s.doc s.lit).ending_type⟩ : Line)))
            (itDec s.doc s.lit) := itValid_docModifyLine _ _ _ _ hvP
        have hne1 : blocksNE
            (docModifyLine s.doc (itDec s.doc s.lit) (fun l =>
              (⟨l.content ++ (itLine s.doc s.lit).content,
                (itLine s.doc s.lit).ending_type⟩ : Line))) :=
          blocksNE_docModifyLine _ _ _ hne
        have hlen1 : (flatten (docModifyLine s.doc (itDec s.doc s.lit) (fun l =>
              (⟨l.content ++ (itLine s.doc s.lit).content,
                (itLine s.doc s.lit).ending_type⟩ : Line)))).length =
            (flatten s.doc).length := by
          rw [flat_modifyLine _ _ _ hvP]
          exact length_modifyAt _ _ _
        have hi1 : flatIdx
            (docModifyLine s.doc (itDec s.doc s.lit) (fun l =>
              (⟨l.content ++ (itLine s.doc s.lit).content,
                (itLine s.doc s.lit).ending_type⟩ : Line)))
            (itDec s.doc s.lit) = s.smin.line - 1 := by
          rw [flatIdx_docModifyLine, hiP']
        have hlt1 : flatIdx
            (docModifyLine s.doc (itDec s.doc s.lit) (fun l =>
              (⟨l.content ++ (itLine s.doc s.lit).content,
                (itLine s.doc s.lit).ending_type⟩ : Line)))
            (itDec s.doc s.lit) + 1 <
            (flatten (docModifyLine s.doc (itDec s.doc s.lit) (fun l =>
              (⟨l.content ++ (itLine s.doc s.lit).content,
                (itLine s.doc s.lit).ending_type⟩ : Line)))).length := by
          rw [hi1, hlen1]
          omega
        obtain ⟨hflat2, hne2, _, _⟩ := erase_after_spec _ _ hne1 hv1P hlt1
        have hco : s.smin.line - 1 + 1 = s.smin.line := by omega
        have hmerge := okTags_merge (endings (flatten s.doc)) (s.smin.line - 1) hok
          (by rw [length_endings]; omega)
        rw [hco] at hmerge
        have hok2 : okTagsB (endings (flatten (erase_after
            (docModifyLine s.doc (itDec s.doc s.lit) (fun l =>
              (⟨l.content ++ (itLine s.doc s.lit).content,
                (itLine s.doc s.lit).ending_type⟩ : Line)))
            (itDec s.doc s.lit)))) = true := by
          rw [hflat2, hi1, flat_modifyLine _ _ _ hvP, hiP',
            endings_removeAt,
            endings_modify_const (fun l : Line =>
              (⟨l.content ++ (itLine s.doc s.lit).content,
                (itLine s.doc s.lit).ending_type⟩ : Line))
              (itLine s.doc s.lit).ending_type (fun x => rfl),
            hlittag, hco]
          exact hmerge
        exact ⟨hne2, hok2⟩
      next hcol =>
        refine ⟨blocksNE_docModifyLine _ _ _ hne, ?_⟩
        rw [flat_modifyLine s.doc s.lit (fun l =>
            (⟨removeAt (s.smin.column - 1) l.content, l.ending_type⟩ : Line)) hval,
          endings_modify_preserve (fun l : Line =>
            (⟨removeAt (s.smin.column - 1) l.content, l.ending_type⟩ : Line)) (fun x => rfl)]
        exact hok
    next hz => exact ⟨hne, hok⟩

theorem itValid_insertAfter (doc : List Block) (it : LineIt) (ln : Line)
    (h : itValid doc it) : itValid (insert_after doc it ln).1 it := by
  obtain ⟨hb, hl⟩ := h
  refine ⟨?_, ?_⟩
  · show it.1 < (modifyAt (insertAt (it.2 + 1) ln) it.1 doc).length
    rw [length_modifyAt]
    exact hb
  · show it.2 < blockLen (modifyAt (insertAt (it.2 + 1) ln) it.1 doc) it.1
    unfold blockLen
    have hl' : it.2 < (doc.getD it.1 []).length := hl
    rw [getD_modifyAt_self _ _ _ _ hb, length_insertAt _ _ _ hl']
    omega

theorem flatIdx_insertAfter (doc : List Block) (it : LineIt) (ln : Line) :
    flatIdx ((insert_after doc it ln).1) it = flatIdx doc it := by
  show (flatten ((modifyAt (insertAt (it.2 + 1) ln) it.1 doc).take it.1)).length + it.2 = _
  rw [take_modifyAt_le _ _ _ _ (Nat.le_refl it.1)]
  rfl

theorem insert_char_core_ok (c : Char) (hadSel : Bool) (s : TxState)
    (hne : blocksNE s.doc) (hok : okTagsB (endings (flatten s.doc)) = true)
    (hval : itValid s.doc s.lit) (hidx : flatIdx s.doc s.lit = s.smin.line)
    (hleNone : s.le ≠ LineEnding.none) :
    docOK (insert_char_core c hadSel s).doc := by
  have hsl : s.smin.line < (flatten s.doc).length := by
    rw [← hidx]
    exact flatIdx_lt s.doc s.lit hval
  have hlittag : (itLine s.doc s.lit).ending_type =
      (endings (flatten s.doc)).getD s.smin.line LineEnding.none := by
    rw [itLine_flat s.doc s.lit hval, hidx, endings_getD _ _ hsl]
  simp only [insert_char_core]
  split
  next hnl =>
    have hvI : itValid
        (insert_after s.doc s.lit
          ⟨(itLine s.doc s.lit).content.drop s.smin.column,
            (itLine s.doc s.lit).ending_type⟩).1 s.lit :=
      itValid_insertAfter _ _ _ hval
    have hneI : blocksNE
        (insert_after s.doc s.lit
          ⟨(itLine s.doc s.lit).content.drop s.smin.column,
            (itLine s.doc s.lit).ending_type⟩).1 :=
      blocksNE_insertAfter _ _ _ hne
    refine ⟨blocksNE_docModifyLine _ _ _ hneI, ?_⟩
    rw [flat_modifyLine _ _ _ hvI, flatIdx_insertAfter,
      flat_insertAfter _ _ _ hval, hidx,
      endings_modify_const (fun l : Line =>
        (⟨l.content.take s.smin.column, s.le⟩ : Line)) s.le (fun x => rfl),
      endings_insertAt]
    show okTagsB ((insertAt (s.smin.line + 1) (itLine s.doc s.lit).ending_type
      (endings (flatten s.doc))).set s.smin.line s.le) = true
    rw [hlittag]
    exact okTags_split _ _ _ hok (by rw [length_endings]; exact hsl) hleNone
  next hnl =>
    split
    next hins =>
      refine ⟨blocksNE_docModifyLine _ _ _ hne, ?_⟩
      rw [flat_modifyLine s.doc s.lit (fun l =>
          (⟨insertAt s.smin.column c l.content, l.ending_type⟩ : Line)) hval,
        endings_modify_preserve (fun l : Line =>
          (⟨insertAt s.smin.column c l.content, l.ending_type⟩ : Line)) (fun x => rfl)]
      exact hok
    next hins =>
      refine ⟨blocksNE_docModifyLine _ _ _ hne, ?_⟩
      rw [flat_modifyLine s.doc s.lit (fun l =>
          (⟨l.content.set s.smin.column c, l.ending_type⟩ : Line)) hval,
        endings_modify_preserve (fun l : Line =>
          (⟨l.content.set s.smin.column c, l.ending_type⟩ : Line)) (fun x => rfl)]
      exact hok

theorem insert_char_ok (c : Char) (s : TxState) (hne : blocksNE s.doc)
    (hok : okTagsB (endings (flatten s.doc)) = true)
    (hval : itValid s.doc s.lit) (hidx : flatIdx s.doc s.lit = s.smin.line)
    (hle : posLe s.smin s.smax) (hmax : s.smax.line < num_lines s.doc)
    (hleNone : s.le ≠ LineEnding.none) :
    docOK (insert_char c s).doc := by
  simp only [insert_char]
  split
  next hsel =>
    obtain ⟨h1, h2, h3, h4⟩ :=
      delete_selection_ok { s with modifiedFlag := true } hne hok hval hidx hle hmax
    apply insert_char_core_ok
    · exact h1
    · exact h2
    · rw [delete_selection_lit]
      exact h3
    · rw [delete_selection_lit, delete_selection_smin]
      exact h4
    · rw [delete_selection_le]
      exact hleNone
  next hsel =>
    exact insert_char_core_ok c _ _ hne hok hval hidx hleNone

theorem getLast?_endings (ls : List Line) :
    (endings ls).getLast? = ls.getLast?.map Line.ending_type :=
  List.getLast?_map Line.ending_type ls

theorem flatten_getLast : ∀ (doc : List Block), doc ≠ [] → blocksNE doc →
    (flatten doc).getLast? = lastLineOfLastBlock doc := by
  intro doc
  induction doc with
  | nil => intro hd _; exact absurd rfl hd
  | cons b bs ih =>
    intro _ hne
    cases bs with
    | nil => simp [flatten, lastLineOfLastBlock]
    | cons b2 bs2 =>
      have hne2 : blocksNE (b2 :: bs2) := fun blk hm => hne blk (List.mem_cons_of_mem b hm)
      have hflat2 : flatten (b2 :: bs2) ≠ [] := by
        show b2 ++ flatten bs2 ≠ []
        intro hcon
        exact hne2 b2 (List.mem_cons_self b2 bs2) (List.append_eq_nil.1 hcon).1
      show (b ++ flatten (b2 :: bs2)).getLast? = lastLineOfLastBlock (b :: b2 :: bs2)
      rw [List.getLast?_append_of_ne_nil _ hflat2, ih (by simp) hne2]
      unfold lastLineOfLastBlock
      rw [List.getLast?_cons_cons]

/-- The tag-level invariant implies the spec's phrasing: exactly one `none`
tag, sitting on the last line of the last block. -/
theorem docOK_sentinel (doc : List Block) (h : docOK doc) :
    (endings (flatten doc)).countP (fun e => e == LineEnding.none) = 1 ∧
    (lastLineOfLastBlock doc).map Line.ending_type = some LineEnding.none := by
  obtain ⟨hne, hok⟩ := h
  refine ⟨okTags_count _ hok, ?_⟩
  have hd : doc ≠ [] := by
    intro hcon
    rw [hcon] at hok
    simp [flatten, endings, okTagsB] at hok
  calc (lastLineOfLastBlock doc).map Line.ending_type
      = ((flatten doc).getLast?).map Line.ending_type := by
        rw [flatten_getLast doc hd hne]
    _ = (endings (flatten doc)).getLast? := (getLast?_endings (flatten doc)).symm
    _ = some LineEnding.none := okTags_getLast _ hok

instance (doc : List Block) (it : LineIt) : Decidable (itValid doc it) := by
  unfold itValid
  infer_instance

/-- The validity conditions the transaction loop maintains for the tracked
iterator and span: the iterator is a real line, it references the span's
first line, and the span is ordered and inside the document. -/
def txLitOK (s : TxState) : Prop :=
  itValid s.doc s.lit ∧ flatIdx s.doc s.lit = s.smin.line ∧
  posLe s.smin s.smax ∧ s.smax.line < num_lines s.doc

instance (s : TxState) : Decidable (txLitOK s) := by
  unfold txLitOK
  infer_instance

/-- A small well-formed state used to instantiate the invariant theorem:
document "a\n" (content line plus sentinel line), caret spanning (0,0)-(0,1),
iterator on the first line, configured ending `\n`. -/
def c8_state : TxState :=
  { doc := [[⟨['a'], LineEnding.n⟩, ⟨[], LineEnding.none⟩]],
    le := LineEnding.n, insertMode := true, newcs := [],
    lit := (0, 0), dx := 0, dy := 0, ly := 0, pending := [],
    rpos := ((⟨0, 0⟩, ⟨0, 0⟩) : Entry), smin := ⟨0, 0⟩, smax := ⟨0, 1⟩,
    modifiedFlag := false }

/-- C8: every document produced by `load_from_file` satisfies the document
invariant `docOK`; `docOK` says exactly what the spec says (exactly one
`none` ending tag, on the last line of the last block); and each edit
command — insert character (covering the newline split), backspace
(covering the line merge), forward delete (covering its line merge) and
the selection/span delete — preserves `docOK`, given the transaction's
iterator/span validity conditions and (for insertion, whose newline path
stamps the configured ending onto the split line) a real configured
ending. -/
theorem sentinel_line_invariant :
    (∀ input : List Char, docOK (load_from_file input)) ∧
    (∀ doc : List Block, docOK doc →
      (endings (flatten doc)).countP (fun e => e == LineEnding.none) = 1 ∧
      (lastLineOfLastBlock doc).map Line.ending_type = some LineEnding.none) ∧
    (∀ (c : Char) (s : TxState), docOK s.doc → txLitOK s →
      s.le ≠ LineEnding.none → docOK (insert_char c s).doc) ∧
    (∀ s : TxState, docOK s.doc → txLitOK s → docOK (delete_char_before s).doc) ∧
    (∀ s : TxState, docOK s.doc → txLitOK s → docOK (delete_char_after s).doc) ∧
    (∀ s : TxState, docOK s.doc → txLitOK s → docOK (delete_selection s).doc) := by
  refine ⟨load_from_file_ok, docOK_sentinel, ?_, ?_, ?_, ?_⟩
  · intro c s hdoc hlit hle
    exact insert_char_ok c s hdoc.1 hdoc.2 hlit.1 hlit.2.1 hlit.2.2.1 hlit.2.2.2 hle
  · intro s hdoc hlit
    exact delete_char_before_ok s hdoc.1 hdoc.2 hlit.1 hlit.2.1 hlit.2.2.1 hlit.2.2.2
  · intro s hdoc hlit
    exact delete_char_after_ok s hdoc.1 hdoc.2 hlit.1 hlit.2.1 hlit.2.2.1 hlit.2.2.2
  · intro s hdoc hlit
    obtain ⟨h1, h2, _, _⟩ :=
      delete_selection_ok s hdoc.1 hdoc.2 hlit.1 hlit.2.1 hlit.2.2.1 hlit.2.2.2
    exact ⟨h1, h2⟩

/-- Closed instantiation of `sentinel_line_invariant` at concrete inputs:
the load of "a\n" and the four edit commands at `c8_state`, with every
hypothesis checked by evaluation. -/
theorem sentinel_line_invariant_witness :
    docOK (load_from_file ['a', '\n']) ∧
    (docOK c8_state.doc ∧
      (endings (flatten c8_state.doc)).countP (fun e => e == LineEnding.none) = 1) ∧
    txLitOK c8_state ∧ c8_state.le ≠ LineEnding.none ∧
    docOK (insert_char 'x' c8_state).doc ∧
    docOK (delete_char_before c8_state).doc ∧
    docOK (delete_char_after c8_state).doc ∧
    docOK (delete_selection c8_state).doc :=
  ⟨sentinel_line_invariant.1 ['a', '\n'],
   ⟨by decide, (sentinel_line_invariant.2.1 c8_state.doc (by decide)).1⟩,
   by decide, by decide,
   sentinel_line_invariant.2.2.1 'x' c8_state (by decide) (by decide) (by decide),
   sentinel_line_invariant.2.2.2.1 c8_state (by decide) (by decide),
   sentinel_line_invariant.2.2.2.2.1 c8_state (by decide) (by decide),
   sentinel_line_invariant.2.2.2.2.2 c8_state (by decide) (by decide)⟩

/-! ### The semantics of `editor_context::erase` (claim C10) -/

/-- `_do_erase` in closed form over a valid iterator: remove the line, and
remove the whole block exactly when it held that single line. -/
theorem do_erase_eq (doc : List Block) (it : LineIt) (hval : itValid doc it) :
    do_erase doc it = if blockLen doc it.1 = 1 then removeAt it.1 doc
      else modifyAt (removeAt it.2) it.1 doc := by
  obtain ⟨hb, hl⟩ := hval
  have hget : (modifyAt (removeAt it.2) it.1 doc).getD it.1 [(⟨[], LineEnding.none⟩ : Line)] =
      removeAt it.2 (doc.getD it.1 []) := by
    rw [getD_modifyAt_self _ _ it.1 doc hb, getD_ofLt _ ([] : Block) it.1 doc hb]
  have hlen' : (removeAt it.2 (doc.getD it.1 [])).length = blockLen doc it.1 - 1 :=
    length_removeAt it.2 _ hl
  simp only [do_erase]
  rw [hget]
  by_cases h1 : blockLen doc it.1 = 1
  · rw [if_pos h1]
    have hemp : (removeAt it.2 (doc.getD it.1 [])).isEmpty = true := by
      rw [List.isEmpty_iff]
      apply List.length_eq_zero.1
      omega
    rw [if_pos hemp, removeAt_modifyAt_self]
  · rw [if_neg h1]
    have hemp : ¬ (removeAt it.2 (doc.getD it.1 [])).isEmpty = true := by
      rw [List.isEmpty_iff]
      intro hcon
      have hz := hlen'
      rw [hcon] at hz
      simp at hz
      omega
    rw [if_neg hemp]

/-- C10: for a document with at least two lines and a valid iterator,
`erase` removes exactly the referenced line (stated on the flattened line
sequence), keeps every block non-empty, and removes the referenced block
entirely when it held a single line; the returned handle is a valid
iterator of the new document referencing the erased line's predecessor
when the erased line was the `before_end` line, and its successor
otherwise. -/
theorem erase_handle_semantics (doc : List Block) (it : LineIt)
    (hne : blocksNE doc) (hval : itValid doc it) (h2 : 2 ≤ num_lines doc) :
    flatten (ctx_erase doc it).1 = removeAt (flatIdx doc it) (flatten doc) ∧
    blocksNE (ctx_erase doc it).1 ∧
    (blockLen doc it.1 = 1 → (ctx_erase doc it).1 = removeAt it.1 doc) ∧
    (it = before_end doc →
      itValid (ctx_erase doc it).1 (ctx_erase doc it).2 ∧
      flatIdx (ctx_erase doc it).1 (ctx_erase doc it).2 + 1 = flatIdx doc it ∧
      itLine (ctx_erase doc it).1 (ctx_erase doc it).2 =
        (flatten doc).getD (flatIdx doc it - 1) ⟨[], LineEnding.none⟩) ∧
    (it ≠ before_end doc →
      itValid (ctx_erase doc it).1 (ctx_erase doc it).2 ∧
      flatIdx (ctx_erase doc it).1 (ctx_erase doc it).2 = flatIdx doc it ∧
      itLine (ctx_erase doc it).1 (ctx_erase doc it).2 =
        (flatten doc).getD (flatIdx doc it + 1) ⟨[], LineEnding.none⟩) := by
  have hb : it.1 < doc.length := hval.1
  have hl : it.2 < blockLen doc it.1 := hval.2
  have h2' : 2 ≤ (flatten doc).length := by
    rw [← num_lines_eq]
    exact h2
  have hd : doc ≠ [] := by
    intro hcon
    rw [hcon] at h2'
    simp [flatten] at h2'
  have hfi : flatIdx doc it = (flatten (doc.take it.1)).length + it.2 := rfl
  refine ⟨?_, ?_, ?_, ?_, ?_⟩
  · rw [ctx_erase_fst]
    exact flat_doErase doc it hval
  · rw [ctx_erase_fst]
    exact blocksNE_doErase doc it hval hne
  · intro h1
    rw [ctx_erase_fst, do_erase_eq doc it hval, if_pos h1]
  · intro hbe
    obtain ⟨hvBE, hiBE⟩ := before_end_spec doc hd hne
    rw [← hbe] at hvBE hiBE
    have hpos : 0 < flatIdx doc it := by omega
    obtain ⟨hvD, hiD⟩ := itDec_spec doc it hne hval hpos
    have hnz : it.2 = 0 → 0 < it.1 := by
      intro h0
      by_contra hcon
      have h10 : it.1 = 0 := by omega
      have hz : flatIdx doc it = 0 := by
        rw [hfi, h10, h0]
        rfl
      omega
    have horder : (itDec doc it).1 < it.1 ∨
        ((itDec doc it).1 = it.1 ∧ (itDec doc it).2 < it.2) := by
      unfold itDec
      split
      next h0 =>
        left
        show it.1 - 1 < it.1
        have := hnz h0
        omega
      next h0 =>
        right
        refine ⟨rfl, ?_⟩
        show it.2 - 1 < it.2
        omega
    obtain ⟨hvE, hiE⟩ := do_erase_preserves_earlier doc it (itDec doc it) hval hvD horder
    have hsnd : (ctx_erase doc it).2 = itDec doc it := by
      unfold ctx_erase
      rw [if_pos hbe]
    rw [ctx_erase_fst, hsnd]
    refine ⟨hvE, ?_, ?_⟩
    · rw [hiE]
      exact hiD
    · rw [itLine_flat _ _ hvE, hiE, flat_doErase doc it hval,
        getD_removeAt_lt _ _ _ _ (by omega)]
      have hfd : flatIdx doc (itDec doc it) = flatIdx doc it - 1 := by omega
      rw [hfd]
  · intro hnbe
    have hlt : flatIdx doc it + 1 < (flatten doc).length :=
      flatIdx_ne_last doc it hne hval hd hnbe
    have hlen := length_flatten_decomp doc it.1 hb
    have hsnd : (ctx_erase doc it).2 =
        (if it.2 + 1 < blockLen doc it.1 then ((it.1, it.2) : LineIt)
         else if blockLen doc it.1 = 1 then ((it.1, 0) : LineIt)
         else ((it.1 + 1, 0) : LineIt)) := by
      unfold ctx_erase
      rw [if_neg hnbe]
    rw [ctx_erase_fst, hsnd]
    by_cases hA : it.2 + 1 < blockLen doc it.1
    · rw [if_pos hA]
      have hdoc_eq : do_erase doc it = modifyAt (removeAt it.2) it.1 doc := by
        rw [do_erase_eq doc it hval, if_neg (by omega)]
      have hbl : blockLen (modifyAt (removeAt it.2) it.1 doc) it.1 =
          blockLen doc it.1 - 1 := by
        show ((modifyAt (removeAt it.2) it.1 doc).getD it.1 []).length = _
        rw [getD_modifyAt_self _ _ _ _ hb]
        exact length_removeAt it.2 _ hl
      have hvH : itValid (do_erase doc it) (it.1, it.2) := by
        rw [hdoc_eq]
        refine ⟨?_, ?_⟩
        · show it.1 < (modifyAt (removeAt it.2) it.1 doc).length
          rw [length_modifyAt]
          exact hb
        · show it.2 < blockLen (modifyAt (removeAt it.2) it.1 doc) it.1
          rw [hbl]
          omega
      have hfH : flatIdx (do_erase doc it) (it.1, it.2) = flatIdx doc it := by
        rw [hdoc_eq]
        show (flatten ((modifyAt (removeAt it.2) it.1 doc).take it.1)).length + it.2 = _
        rw [take_modifyAt_le _ _ _ _ (Nat.le_refl it.1)]
        exact hfi.symm
      refine ⟨hvH, hfH, ?_⟩
      rw [itLine_flat _ _ hvH, hfH, flat_doErase doc it hval,
        getD_removeAt_ge _ _ _ _ (Nat.le_refl _)]
    · rw [if_neg hA]
      have hA' : it.2 + 1 = blockLen doc it.1 := by omega
      have hdroppos : 0 < (flatten (doc.drop (it.1 + 1))).length := by omega
      have hdm : it.1 + 1 < doc.length := by
        by_contra hcon
        have hnil : doc.drop (it.1 + 1) = [] := List.drop_eq_nil_of_le (by omega)
        rw [hnil] at hdroppos
        simp [flatten] at hdroppos
      have hblknext : 0 < blockLen doc (it.1 + 1) := by
        show 0 < (doc.getD (it.1 + 1) []).length
        exact List.length_pos.2 (hne _ (getD_mem [] (it.1 + 1) doc hdm))
      by_cases hB : blockLen doc it.1 = 1
      · rw [if_pos hB]
        have h20 : it.2 = 0 := by omega
        have hdoc_eq : do_erase doc it = removeAt it.1 doc := by
          rw [do_erase_eq doc it hval, if_pos hB]
        have hvH : itValid (do_erase doc it) (it.1, 0) := by
          rw [hdoc_eq]
          refine ⟨?_, ?_⟩
          · show it.1 < (removeAt it.1 doc).length
            rw [length_removeAt it.1 doc hb]
            omega
          · show 0 < ((removeAt it.1 doc).getD it.1 []).length
            rw [getD_removeAt_ge _ _ _ _ (Nat.le_refl it.1)]
            exact hblknext
        have hfH : flatIdx (do_erase doc it) (it.1, 0) = flatIdx doc it := by
          rw [hdoc_eq]
          show (flatten ((removeAt it.1 doc).take it.1)).length + 0 = _
          rw [take_removeAt_le _ _ _ (Nat.le_refl it.1), hfi, h20]
        refine ⟨hvH, hfH, ?_⟩
        rw [itLine_flat _ _ hvH, hfH, flat_doErase doc it hval,
          getD_removeAt_ge _ _ _ _ (Nat.le_refl _)]
      · rw [if_neg hB]
        have hdoc_eq : do_erase doc it = modifyAt (removeAt it.2) it.1 doc := by
          rw [do_erase_eq doc it hval, if_neg hB]
        have hbl : blockLen (modifyAt (removeAt it.2) it.1 doc) it.1 =
            blockLen doc it.1 - 1 := by
          show ((modifyAt (removeAt it.2) it.1 doc).getD it.1 []).length = _
          rw [getD_modifyAt_self _ _ _ _ hb]
          exact length_removeAt it.2 _ hl
        have hblkD : blockLen (modifyAt (removeAt it.2) it.1 doc) (it.1 + 1) =
            blockLen doc (it.1 + 1) := by
          show ((modifyAt (removeAt it.2) it.1 doc).getD (it.1 + 1) []).length = _
          rw [getD_modifyAt_ne _ _ _ _ _ (by omega)]
          rfl
        have hvH : itValid (do_erase doc it) (it.1 + 1, 0) := by
          rw [hdoc_eq]
          refine ⟨?_, ?_⟩
          · show it.1 + 1 < (modifyAt (removeAt it.2) it.1 doc).length
            rw [length_modifyAt]
            exact hdm
          · show 0 < blockLen (modifyAt (removeAt it.2) it.1 doc) (it.1 + 1)
            rw [hblkD]
            exact hblknext
        have hfH : flatIdx (do_erase doc it) (it.1 + 1, 0) = flatIdx doc it := by
          rw [hdoc_eq]
          show (flatten ((modifyAt (removeAt it.2) it.1 doc).take (it.1 + 1))).length + 0 = _
          rw [length_flatten_take_succ (modifyAt (removeAt it.2) it.1 doc) it.1
              (by rw [length_modifyAt]; exact hb),
            take_modifyAt_le _ _ _ _ (Nat.le_refl it.1), hbl, hfi]
          omega
        refine ⟨hvH, hfH, ?_⟩
        rw [itLine_flat _ _ hvH, hfH, flat_doErase doc it hval,
          getD_removeAt_ge _ _ _ _ (Nat.le_refl _)]

/-- A concrete two-block document ("a\n" alone in block 0, "b\n" plus the
sentinel line in block 1) used to instantiate the erase theorem. -/
def c10_doc : List Block :=
  [[⟨['a'], LineEnding.n⟩], [⟨['b'], LineEnding.n⟩, ⟨[], LineEnding.none⟩]]

/-- Closed instantiation of `erase_handle_semantics`: erasing line (0,0) of
`c10_doc` — a line that is alone in its block and is not `before_end` —
removes that whole block, and the returned handle references the old
successor line. -/
theorem erase_handle_semantics_witness :
    blocksNE c10_doc ∧ itValid c10_doc (0, 0) ∧ 2 ≤ num_lines c10_doc ∧
    (ctx_erase c10_doc (0, 0)).1 = removeAt 0 c10_doc ∧
    itLine (ctx_erase c10_doc (0, 0)).1 (ctx_erase c10_doc (0, 0)).2 =
      (flatten c10_doc).getD (flatIdx c10_doc (0, 0) + 1) ⟨[], LineEnding.none⟩ :=
  ⟨by decide, by decide, by decide,
   (erase_handle_semantics c10_doc (0, 0) (by decide) (by decide) (by decide)).2.2.1
     (by decide),
   ((erase_handle_semantics c10_doc (0, 0) (by decide) (by decide) (by decide)).2.2.2.2
     (by decide)).2.2⟩

end Codepad
